import Mathlib

/-!
Verification of the SST table builder (`table/table_builder.cc`) and the
write-batch codec of this repository, via a shallow embedding in Lean 4.

Conventions:
* C++ `size_t` values are modelled as `Nat`, with an explicit `% 2 ^ 64`
  wherever the C++ computation can wrap; `int` values are modelled as `Int`.
* Byte strings are modelled as `List Nat` (each element a byte value).
* Fallible operations return `Option` or a result paired with an error.
-/

namespace RocksDB

/-! ## Compression-codec selection (`TableBuilder::WriteBlock`)

`WriteBlock` picks the per-level compression codec with
`compression_per_level[std::max(0, std::min(level_, n))]` where
`n = compression_per_level.size()`. -/

/-- The index the source computes into `compression_per_level`:
`std::max(0, std::min(level_, n))` with `n` the vector size. -/
def compressionIndex (level : Int) (n : Nat) : Int :=
  max 0 (min level (n : Int))

/-- The index the spec prescribes: `clamp(level, 0, n − 1)`. -/
def clampIndexSpec (level : Int) (n : Nat) : Int :=
  max 0 (min level ((n : Int) - 1))

/-! ## `BytewiseLessThan` and `AddStats`

The anonymous-namespace comparator used for the stats and metaindex maps
returns `Compare(key1, key2) <= 0`.  `std::map::find` reports a key present
exactly when it holds an element equivalent to the key, i.e. an element `e`
with `¬less(k, e) ∧ ¬less(e, k)`. -/

/-- Lexicographic byte comparison, the order of `BytewiseComparator`
(`Slice::compare`, i.e. `memcmp` then length). Returns a negative, zero or
positive value like the C++ comparator. -/
def bytewiseCompare : List Nat → List Nat → Int
  | [], [] => 0
  | [], _ :: _ => -1
  | _ :: _, [] => 1
  | a :: as, b :: bs =>
    if a < b then -1 else if b < a then 1 else bytewiseCompare as bs

/-- `BytewiseLessThan::operator()`: `comparator->Compare(key1, key2) <= 0`. -/
def bytewiseLessThan (key1 key2 : List Nat) : Bool :=
  bytewiseCompare key1 key2 ≤ 0

/-- `std::map` equivalence under a comparator `less`:
two keys are equivalent iff neither is less than the other. -/
def mapEquiv (less : List Nat → List Nat → Bool) (a b : List Nat) : Bool :=
  !less a b && !less b a

/-- `std::map::find` over an entry list: the first entry whose key is
equivalent to the probe under the map's comparator. -/
def mapFind (less : List Nat → List Nat → Bool)
    (entries : List (List Nat × List Nat)) (k : List Nat) :
    Option (List Nat × List Nat) :=
  entries.find? (fun e => mapEquiv less k e.1)

/-- The assertion in `AddStats`: `stats.find(name) == stats.end()`,
i.e. the lookup must come back empty. -/
def addStatsAssertHolds (stats : List (List Nat × List Nat))
    (name : List Nat) : Bool :=
  (mapFind bytewiseLessThan stats name).isNone

/-- Bytes of an ASCII string literal. -/
def strBytes (s : String) : List Nat :=
  s.toList.map Char.toNat

/-- The six hard-coded stat names written by `TableBuilder::Finish`. -/
def statNames : List (List Nat) :=
  [strBytes "rocksdb.raw.key.size",
   strBytes "rocksdb.raw.value.size",
   strBytes "rocksdb.data.size",
   strBytes "rocksdb.index.size",
   strBytes "rocksdb.num.entries",
   strBytes "rocksdb.num.data.blocks"]

/-! ## Block-flush policy (`TableBuilder::Add`, lines 146-160)

`curr_size` and `estimated_size_after` are `size_t`; `block_size` is
`size_t`; `block_size_deviation` is `int`.  The decisive comparison is
`curr_size * 100 > r->options.block_size * (100 - r->options.block_size_deviation)`
performed in `size_t` arithmetic (the `int` operand is converted). -/

/-- C++ conversion of an `int` value to `size_t` (modulo `2 ^ 64`). -/
def intToSizeT (i : Int) : Nat :=
  (i % (2 ^ 64 : Int)).toNat

/-- The flush condition of `TableBuilder::Add`, with `size_t` products
taken modulo `2 ^ 64` as the machine computes them. -/
def shouldFlush (blockSize : Nat) (blockSizeDeviation : Int)
    (currSize estimatedSizeAfter : Nat) : Bool :=
  decide (currSize ≥ blockSize) ||
    (decide (estimatedSizeAfter > blockSize) &&
     decide (blockSizeDeviation > 0) &&
     decide ((currSize * 100) % 2 ^ 64 >
       (blockSize * intToSizeT (100 - blockSizeDeviation)) % 2 ^ 64))

/-- The flush condition as the spec words it:
flush iff `cur ≥ B` OR (`after > B` AND `d > 0` AND `cur·100 > B·(100−d)`),
read over unbounded integers. -/
def shouldFlushSpec (blockSize : Nat) (blockSizeDeviation : Int)
    (currSize estimatedSizeAfter : Nat) : Bool :=
  decide (currSize ≥ blockSize) ||
    (decide (estimatedSizeAfter > blockSize) &&
     decide (blockSizeDeviation > 0) &&
     decide ((currSize : Int) * 100 >
       (blockSize : Int) * (100 - blockSizeDeviation)))

/-! ## Raw-block framing (`TableBuilder::WriteRawBlock`), at byte level

The CRC32C implementation lives in `util/crc32c.*`, outside the sources of
this snapshot; it is kept abstract as a pair of functions `crcValue`
(`crc32c::Value`) and `crcExtend` (`crc32c::Extend`), related by the
documented contract `Extend(Value(a), b) = Value(a ++ b)`. -/

/-- Modelled from the spec: the CRC mask of `util/crc32c.h`,
`mask(c) = ((c >> 15) | (c << 17)) + 0xa282ead8` in `uint32_t` arithmetic. -/
def maskCrc (c : Nat) : Nat :=
  (Nat.lor (c % 2 ^ 32 / 2 ^ 15) ((c * 2 ^ 17) % 2 ^ 32) + 0xa282ead8) % 2 ^ 32

/-- Modelled from the spec: `EncodeFixed32` of `util/coding.h`, the
little-endian four-byte encoding of a `uint32_t`. -/
def encodeFixed32 (n : Nat) : List Nat :=
  [n % 256, n / 2 ^ 8 % 256, n / 2 ^ 16 % 256, n / 2 ^ 24 % 256]

/-- `kBlockTrailerSize` from `table/format.h`: 1 type byte + 4 CRC bytes. -/
def kBlockTrailerSize : Nat := 5

/-- The sink-facing state touched by `WriteRawBlock`: the bytes appended to
the file so far, the running `offset`, and whether `status.ok()`. -/
structure RawFileState where
  fileBytes : List Nat
  offset : Nat
  ok : Bool
  deriving Repr, DecidableEq

/-- `TableBuilder::WriteRawBlock`.  `app1` and `app2` are the outcomes of the
two `file->Append` calls (contents, then trailer); a failed append is
modelled as appending nothing.  Returns the new state together with the
`BlockHandle` `(offset, size)` recorded for the block. -/
def writeRawBlock (crcValue : List Nat → Nat) (crcExtend : Nat → List Nat → Nat)
    (st : RawFileState) (blockContents : List Nat) (ty : Nat)
    (app1 app2 : Bool) : RawFileState × (Nat × Nat) :=
  let handle := (st.offset, blockContents.length)
  if app1 then
    let crc := crcExtend (crcValue blockContents) [ty]
    let trailer := ty :: encodeFixed32 (maskCrc crc)
    let st1 : RawFileState :=
      { st with fileBytes := st.fileBytes ++ blockContents, ok := true }
    if app2 then
      ({ st1 with fileBytes := st1.fileBytes ++ trailer, ok := true,
                  offset := st.offset + blockContents.length + kBlockTrailerSize },
       handle)
    else
      ({ st1 with ok := false }, handle)
  else
    ({ st with ok := false }, handle)

/-! ## The `TableBuilder` state machine (`TableBuilder::Rep` and methods)

Keys have an abstract type `α` (the comparator of the options), values an
abstract type `β`.  `BlockBuilder` and `FilterBlockBuilder` live outside the
sources of this snapshot, so their size estimates and produced byte counts
are abstract functions; a data block is represented by its entry list.
The writable-file sink is abstracted to a list of block-level segments; the
success of each `file->Append` / `file->Flush` call is an explicit input. -/

/-- External knobs of the builder: the relevant `Options` fields together
with the abstracted collaborators (block-size estimation from
`BlockBuilder`, key shortening from the `Comparator`, byte counts of the
produced blocks). -/
structure TBParams (α β : Type) where
  blockSize : Nat
  blockSizeDeviation : Int
  hasFilter : Bool
  initKey : α
  szCur : List (α × β) → Nat
  szAfter : List (α × β) → α → β → Nat
  blockBytes : List (α × β) → Nat
  keySize : α → Nat
  valSize : β → Nat
  sep : α → α → α
  shortSucc : α → α
  filterBytes : List α → Nat
  statsBytes : Nat
  metaBytes : Nat
  indexBytes : List (α × (Nat × Nat)) → Nat

/-- One block-level write to the sink. -/
inductive Segment (α β : Type) where
  | data (entries : List (α × β))
  | filter
  | stats
  | metaindex
  | indexBlk (entries : List (α × (Nat × Nat)))
  | footer
  deriving DecidableEq

/-- The mutable fields of `TableBuilder::Rep` (plus the sink contents). -/
structure TBState (α β : Type) where
  offset : Nat
  ok : Bool
  closed : Bool
  dataBlock : List (α × β)
  indexBlock : List (α × (Nat × Nat))
  lastKey : α
  numEntries : Nat
  numDataBlocks : Nat
  rawKeySize : Nat
  rawValueSize : Nat
  dataSize : Nat
  pendingIndexEntry : Bool
  pendingHandle : Nat × Nat
  filterKeys : List α
  filterStarts : List Nat
  file : List (Segment α β)
  deriving DecidableEq

/-- The state after the `TableBuilder` constructor (which calls
`filter_block->StartBlock(0)` when a filter policy is set). -/
def initState (p : TBParams α β) : TBState α β :=
  { offset := 0, ok := true, closed := false, dataBlock := [], indexBlock := [],
    lastKey := p.initKey, numEntries := 0, numDataBlocks := 0, rawKeySize := 0,
    rawValueSize := 0, dataSize := 0, pendingIndexEntry := false,
    pendingHandle := (0, 0), filterKeys := [],
    filterStarts := if p.hasFilter then [0] else [], file := [] }

/-- Outcomes of the two `file->Append` calls inside `WriteRawBlock`. -/
structure WriteRes where
  appendBlockOk : Bool
  appendTrailerOk : Bool

/-- Outcomes of the sink calls a `Flush` can make: the block write plus the
trailing `file->Flush()`. -/
structure FlushRes where
  write : WriteRes
  fileFlushOk : Bool

/-- Outcomes of the sink calls `Finish` can make after its internal flush. -/
structure FinishRes where
  filterWrite : WriteRes
  statsWrite : WriteRes
  metaWrite : WriteRes
  indexWrite : WriteRes
  footerOk : Bool

/-- All sink calls succeed. -/
def goodWriteRes : WriteRes := ⟨true, true⟩

/-- All sink calls succeed. -/
def goodFlushRes : FlushRes := ⟨goodWriteRes, true⟩

/-- All sink calls succeed. -/
def goodFinishRes : FinishRes :=
  ⟨goodWriteRes, goodWriteRes, goodWriteRes, goodWriteRes, true⟩

/-- `WriteRawBlock` at segment level: records the handle `(offset, size)`
first, then attempts the two appends; on full success the offset advances by
`size + kBlockTrailerSize`. -/
def writeRawBlockSeg (res : WriteRes) (seg : Segment α β) (bytes : Nat)
    (st : TBState α β) : TBState α β × (Nat × Nat) :=
  let handle := (st.offset, bytes)
  if res.appendBlockOk then
    let st1 := { st with file := st.file ++ [seg], ok := true }
    if res.appendTrailerOk then
      ({ st1 with offset := st.offset + bytes + kBlockTrailerSize }, handle)
    else ({ st1 with ok := false }, handle)
  else ({ st with ok := false }, handle)

/-- `WriteBlock(&r->data_block, &r->pending_handle)`: write the current data
block (compression is byte-level and does not change the entries seen at
this abstraction) and unconditionally reset it. -/
def writeBlockData (p : TBParams α β) (res : WriteRes) (st : TBState α β) :
    TBState α β :=
  let pr := writeRawBlockSeg res (.data st.dataBlock) (p.blockBytes st.dataBlock) st
  { pr.1 with pendingHandle := pr.2, dataBlock := [] }

/-- `TableBuilder::Flush`. -/
def flushOp (p : TBParams α β) (res : FlushRes) (st : TBState α β) :
    TBState α β :=
  if !st.ok then st
  else if st.dataBlock.isEmpty then st
  else
    let st1 := writeBlockData p res.write st
    let st2 := if st1.ok then
        { st1 with pendingIndexEntry := true, ok := res.fileFlushOk }
      else st1
    let st3 := if p.hasFilter then
        { st2 with filterStarts := st2.filterStarts ++ [st2.offset] }
      else st2
    { st3 with dataSize := st3.offset, numDataBlocks := st3.numDataBlocks + 1 }

/-- Lines 162-180 of `TableBuilder::Add`: the part after the flush decision
(pending index entry emission, filter feeding, appending the pair). -/
def addRest (p : TBParams α β) (st : TBState α β) (k : α) (v : β) :
    TBState α β :=
  let st1 := if st.pendingIndexEntry then
      { st with
        lastKey := p.sep st.lastKey k,
        indexBlock := st.indexBlock ++ [(p.sep st.lastKey k, st.pendingHandle)],
        pendingIndexEntry := false }
    else st
  let st2 := if p.hasFilter then
      { st1 with filterKeys := st1.filterKeys ++ [k] }
    else st1
  { st2 with
    lastKey := k,
    dataBlock := st2.dataBlock ++ [(k, v)],
    numEntries := st2.numEntries + 1,
    rawKeySize := st2.rawKeySize + p.keySize k,
    rawValueSize := st2.rawValueSize + p.valSize v }

/-- `TableBuilder::Add`. -/
def addOp (p : TBParams α β) (res : FlushRes) (st : TBState α β) (k : α)
    (v : β) : TBState α β :=
  if !st.ok then st
  else
    let cur := p.szCur st.dataBlock
    let after := p.szAfter st.dataBlock k v
    let st1 := if shouldFlush p.blockSize p.blockSizeDeviation cur after then
        flushOp p res st
      else st
    addRest p st1 k v

/-- Modelled from the spec: the encoded `Footer` length (`table/format.*` is
outside this snapshot): two handles zero-padded to 40 bytes combined plus an
8-byte magic number. -/
def kFooterEncodedLength : Nat := 48

/-- `Finish`, step 1 after the internal flush: the gated filter-block write. -/
def finishFilter (p : TBParams α β) (res : FinishRes) (st : TBState α β) :
    TBState α β :=
  if st.ok && p.hasFilter then
    (writeRawBlockSeg res.filterWrite .filter (p.filterBytes st.filterKeys) st).1
  else st

/-- `Finish`, step 2: emit the pending index entry with the shortest
successor of `last_key` (no next key exists). -/
def finishPendingIndex (p : TBParams α β) (st : TBState α β) : TBState α β :=
  if st.ok && st.pendingIndexEntry then
    { st with
      lastKey := p.shortSucc st.lastKey,
      indexBlock := st.indexBlock ++ [(p.shortSucc st.lastKey, st.pendingHandle)],
      pendingIndexEntry := false }
  else st

/-- `Finish`, step 3: the gated stats-block plus metaindex-block writes
(the metaindex write is not re-gated on the stats write's outcome). -/
def finishMeta (p : TBParams α β) (res : FinishRes) (st : TBState α β) :
    TBState α β :=
  if st.ok then
    let s1 := (writeRawBlockSeg res.statsWrite .stats p.statsBytes st).1
    (writeRawBlockSeg res.metaWrite .metaindex p.metaBytes s1).1
  else st

/-- `Finish`, step 4: the gated index-block write (`WriteBlock` resets
`r->index_block`). -/
def finishIndex (p : TBParams α β) (res : FinishRes) (st : TBState α β) :
    TBState α β :=
  if st.ok then
    let s1 := (writeRawBlockSeg res.indexWrite (.indexBlk st.indexBlock)
      (p.indexBytes st.indexBlock) st).1
    { s1 with indexBlock := [] }
  else st

/-- `Finish`, step 5: the gated footer append. -/
def finishFooter (res : FinishRes) (st : TBState α β) : TBState α β :=
  if st.ok then
    if res.footerOk then
      { st with
        file := st.file ++ [Segment.footer],
        offset := st.offset + kFooterEncodedLength }
    else { st with ok := false }
  else st

/-- `TableBuilder::Finish`. -/
def finishOp (p : TBParams α β) (fres : FlushRes) (res : FinishRes)
    (st0 : TBState α β) : TBState α β :=
  finishFooter res (finishIndex p res (finishMeta p res
    (finishPendingIndex p (finishFilter p res
      { flushOp p fres st0 with closed := true }))))

/-- `TableBuilder::Abandon`. -/
def abandonOp (st : TBState α β) : TBState α β :=
  { st with closed := true }

/-- The builder states reachable by `Add` / `Flush` / `Finish` / `Abandon`
sequences that respect the open/closed contract (each call's `assert
(!r->closed)`), with arbitrary sink-call outcomes. -/
inductive Reachable (p : TBParams α β) : TBState α β → Prop where
  | init : Reachable p (initState p)
  | add (st : TBState α β) (res : FlushRes) (k : α) (v : β) :
      Reachable p st → st.closed = false → Reachable p (addOp p res st k v)
  | flush (st : TBState α β) (res : FlushRes) :
      Reachable p st → st.closed = false → Reachable p (flushOp p res st)
  | finish (st : TBState α β) (fres : FlushRes) (res : FinishRes) :
      Reachable p st → st.closed = false → Reachable p (finishOp p fres res st)
  | abandon (st : TBState α β) :
      Reachable p st → st.closed = false → Reachable p (abandonOp st)

/-- Key lists of the data-block segments of a file, in write order. -/
def segDataKeys : Segment α β → Option (List α)
  | .data es => some (es.map Prod.fst)
  | _ => none

/-- Key lists of the data-block segments of a file, in write order. -/
def fileDataBlocks (f : List (Segment α β)) : List (List α) :=
  f.filterMap segDataKeys

/-- Keys of the index-block segment(s) of a file. -/
def segIndexKeys : Segment α β → Option (List α)
  | .indexBlk es => some (es.map Prod.fst)
  | _ => none

/-- Keys of the index-block segment(s) of a file. -/
def fileIndexKeys (f : List (Segment α β)) : List α :=
  (f.filterMap segIndexKeys).flatten

/-- The key lists of all data blocks, flushed ones first, the in-progress
block last. -/
def chunksOf (st : TBState α β) : List (List α) :=
  fileDataBlocks st.file ++ [st.dataBlock.map Prod.fst]

/-- The index-key/data-block correspondence the spec states: each index key
is the shortest separator of its block's last key and the next block's
first key, is at least the former and below every key of the next block;
there is one fewer index key than blocks. -/
def IdxOk [LinearOrder α] (p : TBParams α β) : List α → List (List α) → Prop
  | [], [_] => True
  | K :: Ks, c1 :: c2 :: cs =>
      K = p.sep (c1.getLastD p.initKey) (c2.headD p.initKey) ∧
      c1.getLastD p.initKey ≤ K ∧
      (∀ x ∈ c2, K < x) ∧
      IdxOk p Ks (c2 :: cs)
  | _, _ => False

/-- The induction invariant of a successful build after at least one `Add`:
the builder is open and ok with no pending entry, the in-progress block is
nonempty, `last_key` is the last key streamed (and of the current block),
no index segment has been written yet, every block is nonempty, and the
emitted index entries relate to the blocks as `IdxOk` states. -/
structure BuildInv [LinearOrder α] (p : TBParams α β) (ks : List α)
    (st : TBState α β) : Prop where
  hok : st.ok = true
  hclosed : st.closed = false
  hpending : st.pendingIndexEntry = false
  hdb : st.dataBlock ≠ []
  hlastProc : ks.getLast? = some st.lastKey
  hlastDB : (st.dataBlock.map Prod.fst).getLast? = some st.lastKey
  hnoIdxSeg : fileIndexKeys st.file = []
  hchunksNe : ∀ c ∈ chunksOf st, c ≠ []
  hIdx : IdxOk p (st.indexBlock.map Prod.fst) (chunksOf st)

/-- Stream a key/value sequence through `Add` with all sink calls
succeeding. -/
def runAdds (p : TBParams α β) (st : TBState α β) (kvs : List (α × β)) :
    TBState α β :=
  kvs.foldl (fun s kv => addOp p goodFlushRes s kv.1 kv.2) st

/-- A complete successful build: `Add` each pair in order, then `Finish`. -/
def buildTable (p : TBParams α β) (kvs : List (α × β)) : TBState α β :=
  finishOp p goodFlushRes goodFinishRes (runAdds p (initState p) kvs)

/-! ## WriteBatch codec and replay

The WriteBatch implementation (`db/write_batch.cc`) is not among the
sources of this snapshot — only its test is — so the codec below is
modelled from the spec (wire format, operations and replay semantics of
spec §4.4) and checked against the behaviour the test pins down. -/

/-- Emit base-128 groups low-to-high; the fuel only bounds recursion depth
and `n + 1` always suffices since `n / 128 < n` for `n ≥ 128`. -/
def putVarint32Aux : Nat → Nat → List Nat
  | _, 0 => []
  | n, fuel + 1 =>
    if n < 128 then [n] else (n % 128 + 128) :: putVarint32Aux (n / 128) fuel

/-- Modelled from the spec: `PutVarint32` of `util/coding.h` (missing from
this snapshot) — standard unsigned LEB128. -/
def putVarint32 (n : Nat) : List Nat :=
  putVarint32Aux n (n + 1)

/-- Modelled from the spec: `GetVarint32` of `util/coding.h` (missing from
this snapshot) — decode an unsigned LEB128 prefix, returning the value and
the remaining bytes. -/
def getVarint32 : List Nat → Option (Nat × List Nat)
  | [] => none
  | b :: rest =>
    if b < 128 then some (b, rest)
    else
      match getVarint32 rest with
      | some (n, r) => some (b % 128 + 128 * n, r)
      | none => none

/-- Modelled from the spec: `GetLengthPrefixedSlice` — a varint length
followed by that many bytes. -/
def getLengthPrefixed (l : List Nat) : Option (List Nat × List Nat) :=
  match getVarint32 l with
  | some (n, r) => if n ≤ r.length then some (r.take n, r.drop n) else none
  | none => none

/-- A varint length followed by the bytes (`PutLengthPrefixedSlice`). -/
def lengthPrefixed (s : List Nat) : List Nat :=
  putVarint32 s.length ++ s

/-- A decoded WriteBatch record. -/
inductive BRec where
  | put (key value : List Nat)
  | del (key : List Nat)
  | merge (key value : List Nat)
  | logData (blob : List Nat)
  deriving Repr, DecidableEq

/-- Outcome of decoding one record from the front of a payload. -/
inductive ParseResult where
  | ok (r : BRec) (rest : List Nat)
  | fail (msg : String)
  deriving Repr, DecidableEq

/-- Modelled from the spec: decode one record.  Tags are
`0x00` Deletion, `0x01` Value, `0x02` LogData, `0x03` Merge; a truncated or
ill-tagged record yields the corruption message carrying the record type. -/
def parseRecord : List Nat → ParseResult
  | [] => .fail "unknown WriteBatch tag"
  | tag :: rest =>
    if tag = 1 then
      match getLengthPrefixed rest with
      | some (k, r1) =>
        match getLengthPrefixed r1 with
        | some (v, r2) => .ok (.put k v) r2
        | none => .fail "bad WriteBatch Put"
      | none => .fail "bad WriteBatch Put"
    else if tag = 0 then
      match getLengthPrefixed rest with
      | some (k, r1) => .ok (.del k) r1
      | none => .fail "bad WriteBatch Delete"
    else if tag = 3 then
      match getLengthPrefixed rest with
      | some (k, r1) =>
        match getLengthPrefixed r1 with
        | some (v, r2) => .ok (.merge k v) r2
        | none => .fail "bad WriteBatch Merge"
      | none => .fail "bad WriteBatch Merge"
    else if tag = 2 then
      match getLengthPrefixed rest with
      | some (b, r1) => .ok (.logData b) r1
      | none => .fail "bad WriteBatch Blob"
    else .fail "unknown WriteBatch tag"

/-- Fuelled record-list decoder; the fuel only bounds recursion depth and
`payload.length` fuel always suffices (each record consumes at least one
byte), as proved below. -/
def parseRecordsAux : Nat → List Nat → List BRec × Option String
  | _, [] => ([], none)
  | 0, _ :: _ => ([], some "bad WriteBatch")
  | fuel + 1, p =>
    match parseRecord p with
    | .ok r rest =>
      let pr := parseRecordsAux fuel rest
      (r :: pr.1, pr.2)
    | .fail m => ([], some m)

/-- Modelled from the spec: walk the payload, returning the records that
decode completely before the end (or before the first malformed record)
together with the corruption message, if any. -/
def parseRecords (p : List Nat) : List BRec × Option String :=
  parseRecordsAux p.length p

/-- One memtable insertion: `(user_key, sequence, type, value)` as passed to
`MemTable::Add` during replay. -/
structure MemEntry where
  userKey : List Nat
  sequence : Nat
  tag : Nat
  value : List Nat
  deriving Repr, DecidableEq

/-- Records that increment the header count and consume a sequence number
(everything except LogData). -/
def countedRec : BRec → Bool
  | .logData _ => false
  | _ => true

/-- The memtable entry a counted record produces at a given sequence. -/
def entryOf : BRec → Nat → MemEntry
  | .put k v, s => ⟨k, s, 1, v⟩
  | .del k, s => ⟨k, s, 0, []⟩
  | .merge k v, s => ⟨k, s, 3, v⟩
  | .logData b, s => ⟨b, s, 2, []⟩

/-- Modelled from the spec: the insertions replay performs, starting at
sequence `s`; counted records take `s, s+1, …` in payload order and LogData
records are skipped without consuming a sequence number. -/
def replayEntries : Nat → List BRec → List MemEntry
  | _, [] => []
  | s, r :: rest =>
    if countedRec r then entryOf r s :: replayEntries (s + 1) rest
    else replayEntries s rest

/-- Modelled from the spec: a WriteBatch — an 8-byte little-endian sequence
and 4-byte little-endian count header followed by the record payload; the
two header fields are carried decoded. -/
structure WBatch where
  seq : Nat
  count : Nat
  payload : List Nat
  deriving Repr, DecidableEq

/-- A fresh batch: zero header, empty payload. -/
def emptyWBatch : WBatch := ⟨0, 0, []⟩

/-- Modelled from the spec: `WriteBatch::Put` — tag `0x01`, length-prefixed
key and value; increments the 32-bit header count. -/
def wbPut (b : WBatch) (k v : List Nat) : WBatch :=
  { b with
    count := (b.count + 1) % 2 ^ 32,
    payload := b.payload ++ 1 :: (lengthPrefixed k ++ lengthPrefixed v) }

/-- Modelled from the spec: `WriteBatch::Delete` — tag `0x00`,
length-prefixed key; increments the count. -/
def wbDelete (b : WBatch) (k : List Nat) : WBatch :=
  { b with
    count := (b.count + 1) % 2 ^ 32,
    payload := b.payload ++ 0 :: lengthPrefixed k }

/-- Modelled from the spec: `WriteBatch::Merge` — tag `0x03`, length-prefixed
key and value; increments the count. -/
def wbMerge (b : WBatch) (k v : List Nat) : WBatch :=
  { b with
    count := (b.count + 1) % 2 ^ 32,
    payload := b.payload ++ 3 :: (lengthPrefixed k ++ lengthPrefixed v) }

/-- Modelled from the spec: `WriteBatch::PutLogData` — tag `0x02`,
length-prefixed blob; does not touch the count. -/
def wbPutLogData (b : WBatch) (blob : List Nat) : WBatch :=
  { b with payload := b.payload ++ 2 :: lengthPrefixed blob }

/-- Modelled from the spec: `WriteBatch::Clear` — reset to an empty header. -/
def wbClear (_ : WBatch) : WBatch := emptyWBatch

/-- Modelled from the spec: `WriteBatchInternal::SetSequence`. -/
def wbSetSequence (b : WBatch) (s : Nat) : WBatch :=
  { b with seq := s % 2 ^ 64 }

/-- Modelled from the spec: `WriteBatchInternal::Append(dst, src)` —
concatenate `src`'s payload onto `dst`, add `src.count` to `dst.count`,
keep `dst.seq`; `src` itself is left unchanged. -/
def wbAppend (dst src : WBatch) : WBatch :=
  { dst with
    count := (dst.count + src.count) % 2 ^ 32,
    payload := dst.payload ++ src.payload }

/-- Modelled from the spec: `WriteBatchInternal::InsertInto(batch, mem)` —
replay the payload into the memtable (a list of insertions in order);
records decoded before a corruption stay inserted and the corruption is
reported alongside. -/
def insertInto (b : WBatch) (mem : List MemEntry) :
    List MemEntry × Option String :=
  let pr := parseRecords b.payload
  (mem ++ replayEntries b.seq pr.1, pr.2)

/-- The test's truncation: drop the trailing byte of the serialized batch
(the header is intact, the payload loses its last byte). -/
def wbTruncateOne (b : WBatch) : WBatch :=
  { b with payload := b.payload.dropLast }

/-- The corruption message replay reports when the given record is the one
cut off. -/
def recCorruptionMsg : BRec → String
  | .put _ _ => "bad WriteBatch Put"
  | .del _ => "bad WriteBatch Delete"
  | .merge _ _ => "bad WriteBatch Merge"
  | .logData _ => "bad WriteBatch Blob"

/-- The batch of the Blob test: three puts, a log-data record, a delete,
another log-data record, and a merge. -/
def c6BatchW : WBatch :=
  wbMerge (wbPutLogData (wbDelete (wbPutLogData (wbPut (wbPut (wbPut
    emptyWBatch (strBytes "k1") (strBytes "v1"))
    (strBytes "k2") (strBytes "v2"))
    (strBytes "k3") (strBytes "v3"))
    (strBytes "blob1"))
    (strBytes "k2"))
    (strBytes "blob2"))
    (strBytes "foo") (strBytes "bar")

/-- A batch with sequence 200 holding `Put(a,va); Put(b,vb)`. -/
def c7Batch1W : WBatch :=
  wbPut (wbPut (wbSetSequence emptyWBatch 200)
    (strBytes "a") (strBytes "va"))
    (strBytes "b") (strBytes "vb")

/-- A batch with sequence 300 holding `Put(b,vb); Delete(foo)`. -/
def c7Batch2W : WBatch :=
  wbDelete (wbPut (wbSetSequence emptyWBatch 300)
    (strBytes "b") (strBytes "vb"))
    (strBytes "foo")

/-- The batch of the Corruption test: `{Put("foo","bar"); Delete("box")}`
at sequence 200. -/
def c8BatchW : WBatch :=
  wbDelete (wbPut (wbSetSequence emptyWBatch 200)
    (strBytes "foo") (strBytes "bar"))
    (strBytes "box")

/-! Concrete instantiations used to exercise the builder model on closed
inputs. -/

/-- Concrete builder parameters over `Nat` keys and `Unit` values. -/
def c3ParamsW : TBParams Nat Unit :=
  { blockSize := 4, blockSizeDeviation := 10, hasFilter := false, initKey := 0,
    szCur := fun l => l.length, szAfter := fun l _ _ => l.length + 3,
    blockBytes := fun l => l.length, keySize := fun _ => 1, valSize := fun _ => 0,
    sep := fun a _ => a, shortSucc := fun a => a, filterBytes := fun _ => 0,
    statsBytes := 0, metaBytes := 0, indexBytes := fun _ => 0 }

/-- Concrete builder parameters over `Nat` keys and `Unit` values. -/
def c5ParamsW : TBParams Nat Unit :=
  { blockSize := 4, blockSizeDeviation := 10, hasFilter := false, initKey := 0,
    szCur := fun l => l.length, szAfter := fun l _ _ => l.length + 1,
    blockBytes := fun l => l.length, keySize := fun _ => 1, valSize := fun _ => 0,
    sep := fun a _ => a, shortSucc := fun a => a, filterBytes := fun _ => 0,
    statsBytes := 0, metaBytes := 0, indexBytes := fun _ => 0 }

/-- Concrete builder parameters over `Nat` keys and `Unit` values, with a
filter policy set. -/
def c9ParamsW : TBParams Nat Unit :=
  { blockSize := 4, blockSizeDeviation := 10, hasFilter := true, initKey := 0,
    szCur := fun l => l.length, szAfter := fun l _ _ => l.length + 1,
    blockBytes := fun l => l.length, keySize := fun _ => 1, valSize := fun _ => 0,
    sep := fun a _ => a, shortSucc := fun a => a, filterBytes := fun _ => 0,
    statsBytes := 0, metaBytes := 0, indexBytes := fun _ => 0 }

/-- A builder state with a latched sink failure. -/
def c9BadStateW : TBState Nat Unit :=
  { initState c9ParamsW with
    ok := false,
    numEntries := 3,
    dataBlock := [(5, ())] }

/-- Concrete builder parameters with a tiny block size, so that a short run
produces several data blocks; the separator takes the left key and the
short successor adds one. -/
def c2ParamsW : TBParams Nat Unit :=
  { blockSize := 2, blockSizeDeviation := 0, hasFilter := false, initKey := 0,
    szCur := fun l => l.length, szAfter := fun l _ _ => l.length + 1,
    blockBytes := fun l => l.length, keySize := fun _ => 1, valSize := fun _ => 0,
    sep := fun a _ => a, shortSucc := fun a => a + 1, filterBytes := fun _ => 0,
    statsBytes := 0, metaBytes := 0, indexBytes := fun _ => 0 }

/-! Auxiliary facts about `bytewiseCompare`. -/

theorem bytewiseCompare_self (a : List Nat) : bytewiseCompare a a = 0 := by
  induction a with
  | nil => rfl
  | cons x xs ih => simp [bytewiseCompare, ih]

theorem bytewiseCompare_antisymm (a b : List Nat) :
    bytewiseCompare a b = -bytewiseCompare b a := by
  induction a generalizing b with
  | nil => cases b <;> simp [bytewiseCompare]
  | cons x xs ih =>
    cases b with
    | nil => simp [bytewiseCompare]
    | cons y ys =>
      by_cases hxy : x < y
      · have : ¬ y < x := by omega
        simp [bytewiseCompare, hxy, this]
      · by_cases hyx : y < x
        · simp [bytewiseCompare, hxy, hyx]
        · simp [bytewiseCompare, hxy, hyx, ih ys]

theorem mapEquiv_bytewise_false (a b : List Nat) :
    mapEquiv bytewiseLessThan a b = false := by
  simp only [mapEquiv, bytewiseLessThan, Bool.and_eq_false_iff]
  by_cases h : bytewiseCompare a b ≤ 0
  · left; simp [h]
  · right
    have := bytewiseCompare_antisymm a b
    simp only [Bool.not_eq_false', decide_eq_true_eq]
    omega

/-- C10: the sorted-map comparator `BytewiseLessThan` returns
`Compare(key1, key2) <= 0`, which is not a strict order — any key compares
as less than itself (hence two equal strings each compare as less than the
other) — so a map lookup (an entry equivalent to the probe) never reports
an existing key as present, the `assert` in `AddStats` can never fail, and
it is the pairwise distinctness of the six hard-coded stat names that keeps
the stats block free of duplicate keys. -/
theorem c10_bytewiseLessThan_not_strict :
    (∀ a : List Nat, bytewiseLessThan a a = true) ∧
    (∀ entries : List (List Nat × List Nat), ∀ k : List Nat,
      mapFind bytewiseLessThan entries k = none) ∧
    (∀ stats : List (List Nat × List Nat), ∀ name : List Nat,
      addStatsAssertHolds stats name = true) ∧
    statNames.Pairwise (· ≠ ·) := by
  have hfind : ∀ entries : List (List Nat × List Nat), ∀ k : List Nat,
      mapFind bytewiseLessThan entries k = none := by
    intro entries k
    rw [mapFind, List.find?_eq_none]
    intro e _
    simp [mapEquiv_bytewise_false]
  refine ⟨?_, hfind, ?_, ?_⟩
  · intro a
    simp [bytewiseLessThan, bytewiseCompare_self]
  · intro stats name
    simp [addStatsAssertHolds, hfind]
  · decide

/-- C1: refuted — at `compression_per_level.size() = 1` and `level_ = 1`
the source computes index `max(0, min(1, 1)) = 1`, which is not at most
`n − 1 = 0`: the index used is one past the end, while the spec's clamp
(and the source's own comment, "use the last value") give index `0`. -/
theorem c1_compression_index_out_of_bounds :
    compressionIndex 1 1 = 1 ∧
    ¬ compressionIndex 1 1 ≤ (1 : Int) - 1 ∧
    clampIndexSpec 1 1 = 0 := by
  refine ⟨by decide, by decide, by decide⟩

theorem shouldFlush_eq_spec (B : Nat) (d : Int) (cur after : Nat)
    (hB : B * 100 < 2 ^ 64) (hcur : cur * 100 < 2 ^ 64)
    (hd1 : -2 ^ 31 ≤ d) (hd2 : d ≤ 100) :
    shouldFlush B d cur after = shouldFlushSpec B d cur after := by
  unfold shouldFlush shouldFlushSpec
  by_cases hd0 : d > 0
  · suffices hXY : ((cur * 100) % 2 ^ 64 > (B * intToSizeT (100 - d)) % 2 ^ 64) ↔
        ((cur : Int) * 100 > (B : Int) * (100 - d)) by
      rw [decide_eq_decide.mpr hXY]
    have h64 : (2 : Int) ^ 64 = 18446744073709551616 := by norm_num
    have ht : intToSizeT (100 - d) = (100 - d).toNat := by
      unfold intToSizeT
      congr 1
      refine Int.emod_eq_of_lt (by omega) (by omega)
    have htle : (100 - d).toNat ≤ 100 := by omega
    have hBt : B * (100 - d).toNat < 2 ^ 64 :=
      lt_of_le_of_lt (Nat.mul_le_mul_left B htle) hB
    rw [ht, Nat.mod_eq_of_lt hcur, Nat.mod_eq_of_lt hBt]
    have hcast : ((B * (100 - d).toNat : Nat) : Int) = (B : Int) * (100 - d) := by
      push_cast [Int.toNat_of_nonneg (show (0 : Int) ≤ 100 - d by omega)]
      ring
    omega
  · simp [hd0]

/-- C3: on an open, ok builder, `Add` flushes the current data block before
appending exactly when `cur ≥ block_size`, or `after > block_size` and
`block_size_deviation > 0` and `cur·100 > block_size·(100 − deviation)` —
the spec's condition read over unbounded integers — given that the machine
products do not wrap and the deviation is a percentage within the `int`
range. -/
theorem c3_add_flush_decision (p : TBParams α β) (res : FlushRes)
    (st : TBState α β) (k : α) (v : β)
    (hok : st.ok = true) (_hopen : st.closed = false)
    (hcur : p.szCur st.dataBlock * 100 < 2 ^ 64)
    (hB : p.blockSize * 100 < 2 ^ 64)
    (hd1 : -2 ^ 31 ≤ p.blockSizeDeviation) (hd2 : p.blockSizeDeviation ≤ 100) :
    addOp p res st k v =
      addRest p
        (if shouldFlushSpec p.blockSize p.blockSizeDeviation
            (p.szCur st.dataBlock) (p.szAfter st.dataBlock k v) then
          flushOp p res st
        else st) k v := by
  simp only [addOp, hok, Bool.not_true, Bool.false_eq_true, if_false]
  rw [shouldFlush_eq_spec _ _ _ _ hB hcur hd1 hd2]

theorem c3_add_flush_decision_witness :
    ((initState c3ParamsW).ok = true ∧
     c3ParamsW.szCur (initState c3ParamsW).dataBlock * 100 < 2 ^ 64) ∧
    addOp c3ParamsW goodFlushRes (initState c3ParamsW) 7 () =
      addRest c3ParamsW
        (if shouldFlushSpec c3ParamsW.blockSize c3ParamsW.blockSizeDeviation
            (c3ParamsW.szCur (initState c3ParamsW).dataBlock)
            (c3ParamsW.szAfter (initState c3ParamsW).dataBlock 7 ()) then
          flushOp c3ParamsW goodFlushRes (initState c3ParamsW)
        else initState c3ParamsW) 7 () :=
  ⟨⟨rfl, by decide⟩,
   c3_add_flush_decision c3ParamsW goodFlushRes (initState c3ParamsW) 7 ()
     rfl rfl (by decide) (by decide) (by decide) (by decide)⟩

/-- C4: with both appends succeeding, `WriteRawBlock` appends exactly
`block_contents` then a 5-byte trailer — the compression tag byte followed
by the little-endian masked CRC32C of `block_contents ∥ tag` — advances the
offset by `size + 5`, and records the handle `(pre-write offset, size)`
(size excluding the trailer). -/
theorem c4_writeRawBlock_framing (crcValue : List Nat → Nat)
    (crcExtend : Nat → List Nat → Nat)
    (hcrc : ∀ a b, crcExtend (crcValue a) b = crcValue (a ++ b))
    (st : RawFileState) (blockContents : List Nat) (ty : Nat) :
    (writeRawBlock crcValue crcExtend st blockContents ty true true).1.fileBytes =
      st.fileBytes ++ blockContents ++
        ty :: encodeFixed32 (maskCrc (crcValue (blockContents ++ [ty]))) ∧
    (ty :: encodeFixed32 (maskCrc (crcValue (blockContents ++ [ty])))).length = 5 ∧
    (writeRawBlock crcValue crcExtend st blockContents ty true true).1.offset =
      st.offset + blockContents.length + 5 ∧
    (writeRawBlock crcValue crcExtend st blockContents ty true true).1.ok = true ∧
    (writeRawBlock crcValue crcExtend st blockContents ty true true).2 =
      (st.offset, blockContents.length) := by
  refine ⟨?_, ?_, ?_, ?_, ?_⟩ <;>
    simp [writeRawBlock, hcrc, encodeFixed32, kBlockTrailerSize,
      List.append_assoc]

theorem c4_writeRawBlock_framing_witness :
    (∀ a b : List Nat, a.length + b.length = (a ++ b).length) ∧
    (writeRawBlock (fun l => l.length) (fun c b => c + b.length)
        ⟨[9], 6, true⟩ [1, 2] 0 true true).1.fileBytes =
      [9] ++ [1, 2] ++
        0 :: encodeFixed32 (maskCrc (([1, 2] ++ [0] : List Nat).length)) :=
  ⟨fun a b => (List.length_append a b).symm,
   (c4_writeRawBlock_framing (fun l => l.length) (fun c b => c + b.length)
     (fun a b => (List.length_append a b).symm) ⟨[9], 6, true⟩ [1, 2] 0).1⟩

/-! Field-preservation facts about the builder operations. -/

theorem addRest_pendingIndexEntry (p : TBParams α β) (st : TBState α β)
    (k : α) (v : β) : (addRest p st k v).pendingIndexEntry = false := by
  unfold addRest
  by_cases h1 : st.pendingIndexEntry <;> by_cases h2 : p.hasFilter <;>
    simp [h1, h2]

theorem addOp_not_ok (p : TBParams α β) (res : FlushRes) (st : TBState α β)
    (k : α) (v : β) (hbad : st.ok = false) : addOp p res st k v = st := by
  simp [addOp, hbad]

theorem flushOp_not_ok (p : TBParams α β) (res : FlushRes) (st : TBState α β)
    (hbad : st.ok = false) : flushOp p res st = st := by
  simp [flushOp, hbad]

theorem addOp_pendingIndexEntry (p : TBParams α β) (res : FlushRes)
    (st : TBState α β) (k : α) (v : β) (hok : st.ok = true) :
    (addOp p res st k v).pendingIndexEntry = false := by
  simp only [addOp, hok, Bool.not_true, Bool.false_eq_true, if_false]
  exact addRest_pendingIndexEntry ..

theorem flushOp_eq_or_dataBlock (p : TBParams α β) (res : FlushRes)
    (st : TBState α β) :
    flushOp p res st = st ∨ (flushOp p res st).dataBlock = [] := by
  by_cases hok : st.ok = true
  · by_cases hemp : st.dataBlock.isEmpty = true
    · left; simp [flushOp, hok, hemp]
    · right
      simp only [flushOp, hok, Bool.not_true, Bool.false_eq_true, if_false,
        hemp]
      split_ifs <;> simp [writeBlockData]
  · left
    exact flushOp_not_ok p res st (by simpa using hok)

theorem finishFilter_dataBlock (p : TBParams α β) (res : FinishRes)
    (st : TBState α β) : (finishFilter p res st).dataBlock = st.dataBlock := by
  unfold finishFilter writeRawBlockSeg
  split_ifs <;> rfl

theorem finishFilter_pendingIndexEntry (p : TBParams α β) (res : FinishRes)
    (st : TBState α β) :
    (finishFilter p res st).pendingIndexEntry = st.pendingIndexEntry := by
  unfold finishFilter writeRawBlockSeg
  split_ifs <;> rfl

theorem finishPendingIndex_dataBlock (p : TBParams α β) (st : TBState α β) :
    (finishPendingIndex p st).dataBlock = st.dataBlock := by
  unfold finishPendingIndex
  split_ifs <;> rfl

theorem finishPendingIndex_pending_mono (p : TBParams α β) (st : TBState α β)
    (h : (finishPendingIndex p st).pendingIndexEntry = true) :
    st.pendingIndexEntry = true := by
  unfold finishPendingIndex at h
  split_ifs at h with hc
  exact h

theorem finishMeta_dataBlock (p : TBParams α β) (res : FinishRes)
    (st : TBState α β) : (finishMeta p res st).dataBlock = st.dataBlock := by
  unfold finishMeta writeRawBlockSeg
  split_ifs <;> rfl

theorem finishMeta_pendingIndexEntry (p : TBParams α β) (res : FinishRes)
    (st : TBState α β) :
    (finishMeta p res st).pendingIndexEntry = st.pendingIndexEntry := by
  unfold finishMeta writeRawBlockSeg
  split_ifs <;> rfl

theorem finishIndex_dataBlock (p : TBParams α β) (res : FinishRes)
    (st : TBState α β) : (finishIndex p res st).dataBlock = st.dataBlock := by
  unfold finishIndex writeRawBlockSeg
  split_ifs <;> rfl

theorem finishIndex_pendingIndexEntry (p : TBParams α β) (res : FinishRes)
    (st : TBState α β) :
    (finishIndex p res st).pendingIndexEntry = st.pendingIndexEntry := by
  unfold finishIndex writeRawBlockSeg
  split_ifs <;> rfl

theorem finishFooter_dataBlock (res : FinishRes) (st : TBState α β) :
    (finishFooter res st).dataBlock = st.dataBlock := by
  unfold finishFooter
  split_ifs <;> rfl

theorem finishFooter_pendingIndexEntry (res : FinishRes) (st : TBState α β) :
    (finishFooter res st).pendingIndexEntry = st.pendingIndexEntry := by
  unfold finishFooter
  split_ifs <;> rfl

/-- The line-89 invariant of `TableBuilder::Rep`, established over every
reachable builder state. -/
theorem reachable_pending_inv (p : TBParams α β) (s : TBState α β)
    (hs : Reachable p s) : s.pendingIndexEntry = true → s.dataBlock = [] := by
  induction hs with
  | init => intro hp; simp [initState] at hp
  | add st res k v hr hcl ih =>
    intro hp
    by_cases hok : st.ok = true
    · rw [addOp_pendingIndexEntry p res st k v hok] at hp
      exact absurd hp (by simp)
    · rw [addOp_not_ok p res st k v (by simpa using hok)] at hp ⊢
      exact ih hp
  | flush st res hr hcl ih =>
    intro hp
    rcases flushOp_eq_or_dataBlock p res st with h | h
    · rw [h] at hp ⊢; exact ih hp
    · exact h
  | finish st fres res hr hcl ih =>
    intro hp
    rw [finishOp, finishFooter_pendingIndexEntry, finishIndex_pendingIndexEntry,
      finishMeta_pendingIndexEntry] at hp
    have hp2 := finishPendingIndex_pending_mono _ _ hp
    rw [finishFilter_pendingIndexEntry] at hp2
    have hp3 : (flushOp p fres st).pendingIndexEntry = true := hp2
    have hdb : (flushOp p fres st).dataBlock = [] := by
      rcases flushOp_eq_or_dataBlock p fres st with h | h
      · rw [h] at hp3 ⊢; exact ih hp3
      · exact h
    rw [finishOp, finishFooter_dataBlock, finishIndex_dataBlock,
      finishMeta_dataBlock, finishPendingIndex_dataBlock,
      finishFilter_dataBlock]
    exact hdb
  | abandon st hr hcl ih =>
    intro hp
    exact ih hp

/-- C5: in every builder state reachable by `Add`/`Flush`/`Finish`/`Abandon`
sequences respecting the open/closed contract (with arbitrary sink
outcomes), `pending_index_entry = true` implies the in-progress data block
is empty; moreover any `Flush` from such a state re-establishes the
implication, and an `Add` on an ok state always leaves the flag cleared
(it is cleared before the pair is appended). -/
theorem c5_pending_index_entry_invariant (p : TBParams α β) (st : TBState α β)
    (h : Reachable p st) :
    (st.pendingIndexEntry = true → st.dataBlock = []) ∧
    (∀ res : FlushRes, (flushOp p res st).pendingIndexEntry = true →
      (flushOp p res st).dataBlock = []) ∧
    (∀ (res : FlushRes) (k : α) (v : β), st.ok = true →
      (addOp p res st k v).pendingIndexEntry = false) := by
  refine ⟨reachable_pending_inv p st h, ?_, ?_⟩
  · intro res hp
    rcases flushOp_eq_or_dataBlock p res st with heq | hdb
    · rw [heq] at hp ⊢; exact reachable_pending_inv p st h hp
    · exact hdb
  · intro res k v hok
    exact addOp_pendingIndexEntry p res st k v hok

theorem c5_pending_index_entry_invariant_witness :
    Reachable c5ParamsW (initState c5ParamsW) ∧
    ((initState c5ParamsW).pendingIndexEntry = true →
      (initState c5ParamsW).dataBlock = []) :=
  ⟨Reachable.init,
   (c5_pending_index_entry_invariant c5ParamsW (initState c5ParamsW)
     Reachable.init).1⟩

/-- C9: once the status is not ok, `Add` and `Flush` return the state
unchanged (counters, blocks and file included), and `Finish` only marks the
builder closed — it performs none of the filter, stats, metaindex, index or
footer writes and leaves the latched error in place. -/
theorem c9_error_latched (p : TBParams α β) (res res2 fres : FlushRes)
    (finres : FinishRes) (st : TBState α β) (k : α) (v : β)
    (hbad : st.ok = false) :
    addOp p res st k v = st ∧
    flushOp p res2 st = st ∧
    finishOp p fres finres st = { st with closed := true } ∧
    (finishOp p fres finres st).ok = false ∧
    (finishOp p fres finres st).file = st.file := by
  have hfin : finishOp p fres finres st = { st with closed := true } := by
    rw [finishOp, flushOp_not_ok p fres st hbad]
    rw [finishFilter, finishPendingIndex, finishMeta, finishIndex,
      finishFooter]
    simp [hbad]
  refine ⟨addOp_not_ok p res st k v hbad, flushOp_not_ok p res2 st hbad,
    hfin, ?_, ?_⟩ <;> rw [hfin] <;> simpa using hbad

theorem c9_error_latched_witness :
    c9BadStateW.ok = false ∧
    addOp c9ParamsW goodFlushRes c9BadStateW 7 () = c9BadStateW ∧
    finishOp c9ParamsW goodFlushRes goodFinishRes c9BadStateW =
      { c9BadStateW with closed := true } :=
  ⟨rfl,
   (c9_error_latched c9ParamsW goodFlushRes goodFlushRes goodFlushRes
     goodFinishRes c9BadStateW 7 () rfl).1,
   (c9_error_latched c9ParamsW goodFlushRes goodFlushRes goodFlushRes
     goodFinishRes c9BadStateW 7 () rfl).2.2.1⟩

/-! List helpers for the index-key argument. -/

theorem getLastD_of_getLast? (l : List α) (a d : α) (h : l.getLast? = some a) :
    l.getLastD d = a := by
  rw [List.getLastD_eq_getLast?, h]; rfl

theorem headD_append_singleton (c : List α) (k d : α) (h : c ≠ []) :
    (c ++ [k]).headD d = c.headD d := by
  cases c with
  | nil => exact absurd rfl h
  | cons x xs => rfl

theorem fileDataBlocks_append (f1 f2 : List (Segment α β)) :
    fileDataBlocks (f1 ++ f2) = fileDataBlocks f1 ++ fileDataBlocks f2 := by
  simp [fileDataBlocks]

theorem fileIndexKeys_append (f1 f2 : List (Segment α β)) :
    fileIndexKeys (f1 ++ f2) = fileIndexKeys f1 ++ fileIndexKeys f2 := by
  simp [fileIndexKeys]

theorem fileDataBlocks_nil : fileDataBlocks ([] : List (Segment α β)) = [] :=
  rfl

theorem fileIndexKeys_nil : fileIndexKeys ([] : List (Segment α β)) = [] :=
  rfl

theorem fileDataBlocks_cons (s : Segment α β) (f : List (Segment α β)) :
    fileDataBlocks (s :: f) =
      (segDataKeys s).toList ++ fileDataBlocks f := by
  cases s <;> simp [fileDataBlocks, segDataKeys]

theorem fileIndexKeys_cons (s : Segment α β) (f : List (Segment α β)) :
    fileIndexKeys (s :: f) =
      ((segIndexKeys s).getD []) ++ fileIndexKeys f := by
  cases s <;> simp [fileIndexKeys, segIndexKeys]

/-! Evaluation of the builder operations on the all-success path. -/

theorem writeRawBlockSeg_good (seg : Segment α β) (n : Nat)
    (st : TBState α β) :
    writeRawBlockSeg goodWriteRes seg n st =
      ({ st with
          file := st.file ++ [seg],
          ok := true,
          offset := st.offset + n + kBlockTrailerSize }, (st.offset, n)) := by
  rfl

theorem flushOp_good (p : TBParams α β) (st : TBState α β)
    (hok : st.ok = true) (hne : st.dataBlock.isEmpty = false) :
    flushOp p goodFlushRes st =
      { st with
        file := st.file ++ [Segment.data st.dataBlock],
        offset := st.offset + p.blockBytes st.dataBlock + kBlockTrailerSize,
        pendingHandle := (st.offset, p.blockBytes st.dataBlock),
        dataBlock := [],
        pendingIndexEntry := true,
        ok := true,
        filterStarts := if p.hasFilter then
            st.filterStarts ++
              [st.offset + p.blockBytes st.dataBlock + kBlockTrailerSize]
          else st.filterStarts,
        dataSize := st.offset + p.blockBytes st.dataBlock + kBlockTrailerSize,
        numDataBlocks := st.numDataBlocks + 1 } := by
  by_cases hf : p.hasFilter <;>
    simp [flushOp, hok, hne, writeBlockData, writeRawBlockSeg_good,
      goodFlushRes, hf]

theorem addRest_pending_true (p : TBParams α β) (s : TBState α β) (k : α)
    (v : β) (hp : s.pendingIndexEntry = true) :
    addRest p s k v =
      { s with
        lastKey := k,
        indexBlock := s.indexBlock ++ [(p.sep s.lastKey k, s.pendingHandle)],
        pendingIndexEntry := false,
        filterKeys := if p.hasFilter then s.filterKeys ++ [k] else s.filterKeys,
        dataBlock := s.dataBlock ++ [(k, v)],
        numEntries := s.numEntries + 1,
        rawKeySize := s.rawKeySize + p.keySize k,
        rawValueSize := s.rawValueSize + p.valSize v } := by
  by_cases hf : p.hasFilter <;> simp [addRest, hp, hf]

theorem addRest_pending_false (p : TBParams α β) (s : TBState α β) (k : α)
    (v : β) (hp : s.pendingIndexEntry = false) :
    addRest p s k v =
      { s with
        lastKey := k,
        filterKeys := if p.hasFilter then s.filterKeys ++ [k] else s.filterKeys,
        dataBlock := s.dataBlock ++ [(k, v)],
        numEntries := s.numEntries + 1,
        rawKeySize := s.rawKeySize + p.keySize k,
        rawValueSize := s.rawValueSize + p.valSize v } := by
  by_cases hf : p.hasFilter <;> simp [addRest, hp, hf]

theorem addOp_good (p : TBParams α β) (st : TBState α β) (k : α) (v : β)
    (hok : st.ok = true) :
    addOp p goodFlushRes st k v =
      addRest p
        (if shouldFlush p.blockSize p.blockSizeDeviation
            (p.szCur st.dataBlock) (p.szAfter st.dataBlock k v) then
          flushOp p goodFlushRes st
        else st) k v := by
  simp only [addOp, hok, Bool.not_true, Bool.false_eq_true, if_false]

/-! Facts about the index-key/chunk correspondence `IdxOk`. -/

theorem IdxOk_length [LinearOrder α] (p : TBParams α β) (Ks : List α)
    (cs : List (List α)) (h : IdxOk p Ks cs) : Ks.length + 1 = cs.length := by
  induction Ks generalizing cs with
  | nil =>
    cases cs with
    | nil => simp [IdxOk] at h
    | cons c cs' =>
      cases cs' with
      | nil => rfl
      | cons d ds => simp [IdxOk] at h
  | cons K Ks' ih =>
    cases cs with
    | nil => simp [IdxOk] at h
    | cons c1 cs' =>
      cases cs' with
      | nil => simp [IdxOk] at h
      | cons c2 cs'' =>
        simp only [IdxOk] at h
        simpa using ih (c2 :: cs'') h.2.2.2

theorem IdxOk_last_extend [LinearOrder α] (p : TBParams α β) (Ks : List α)
    (cs : List (List α)) (c : List α) (k : α)
    (h : IdxOk p Ks (cs ++ [c])) (hc : c ≠ [])
    (hlast : c.getLastD p.initKey < k) :
    IdxOk p Ks (cs ++ [c ++ [k]]) := by
  induction Ks generalizing cs with
  | nil =>
    cases cs with
    | nil => simp [IdxOk]
    | cons d ds =>
      rcases hsplit : ds ++ [c] with _ | ⟨e, es⟩
      · exact absurd hsplit (by simp)
      · rw [List.cons_append, hsplit] at h
        simp [IdxOk] at h
  | cons K Ks' ih =>
    cases cs with
    | nil => simp [IdxOk] at h
    | cons c1 cs' =>
      cases cs' with
      | nil =>
        simp only [List.cons_append, List.nil_append, IdxOk] at h ⊢
        obtain ⟨h1, h2, h3, h4⟩ := h
        have hmem : c.getLastD p.initKey ∈ c := by
          rw [getLastD_of_getLast? c _ _ (List.getLast?_eq_getLast_of_ne_nil hc)]
          exact List.getLast_mem hc
        refine ⟨?_, h2, ?_, ?_⟩
        · rw [headD_append_singleton c k p.initKey hc]; exact h1
        · intro x hx
          rcases List.mem_append.1 hx with hx | hx
          · exact h3 x hx
          · rw [List.mem_singleton.1 hx]
            exact lt_trans (h3 _ hmem) hlast
        · cases Ks' with
          | nil => simp [IdxOk]
          | cons K2 Ks2 => simp [IdxOk] at h4
      | cons c2 cs'' =>
        simp only [List.cons_append, IdxOk] at h ⊢
        obtain ⟨h1, h2, h3, h4⟩ := h
        refine ⟨h1, h2, h3, ?_⟩
        have := ih (c2 :: cs'') (by simpa using h4)
        simpa using this

theorem IdxOk_snoc [LinearOrder α] (p : TBParams α β) (Ks : List α)
    (cs : List (List α)) (c : List α) (k K : α)
    (h : IdxOk p Ks (cs ++ [c]))
    (h1 : K = p.sep (c.getLastD p.initKey) k)
    (h2 : c.getLastD p.initKey ≤ K) (h3 : K < k) :
    IdxOk p (Ks ++ [K]) ((cs ++ [c]) ++ [[k]]) := by
  induction Ks generalizing cs with
  | nil =>
    cases cs with
    | nil =>
      simp only [List.nil_append, List.cons_append, IdxOk]
      refine ⟨by simpa using h1, h2, ?_, trivial⟩
      intro x hx
      rw [List.mem_singleton.1 hx]
      exact h3
    | cons d ds =>
      rcases hsplit : ds ++ [c] with _ | ⟨e, es⟩
      · exact absurd hsplit (by simp)
      · rw [List.cons_append, hsplit] at h
        simp [IdxOk] at h
  | cons K' Ks' ih =>
    cases cs with
    | nil => simp [IdxOk] at h
    | cons c1 cs' =>
      rcases hsplit : cs' ++ [c] with _ | ⟨e, es⟩
      · exact absurd hsplit (by simp)
      · rw [List.cons_append, hsplit] at h
        simp only [IdxOk] at h
        obtain ⟨g1, g2, g3, g4⟩ := h
        simp only [List.cons_append, hsplit, IdxOk]
        refine ⟨g1, g2, g3, ?_⟩
        have := ih cs' (by rw [hsplit]; exact g4)
        rw [hsplit] at this
        simpa using this

theorem IdxOk_get [LinearOrder α] (p : TBParams α β) (Ks : List α)
    (cs : List (List α)) (h : IdxOk p Ks cs) :
    ∀ i (h1 : i < Ks.length) (h2 : i < cs.length) (h3 : i + 1 < cs.length),
      Ks.get ⟨i, h1⟩ =
        p.sep ((cs.get ⟨i, h2⟩).getLastD p.initKey)
          ((cs.get ⟨i + 1, h3⟩).headD p.initKey) ∧
      (cs.get ⟨i, h2⟩).getLastD p.initKey ≤ Ks.get ⟨i, h1⟩ ∧
      ∀ x ∈ cs.get ⟨i + 1, h3⟩, Ks.get ⟨i, h1⟩ < x := by
  induction Ks generalizing cs with
  | nil => intro i h1; simp at h1
  | cons K Ks' ih =>
    cases cs with
    | nil => simp [IdxOk] at h
    | cons c1 cs' =>
      cases cs' with
      | nil => simp [IdxOk] at h
      | cons c2 cs'' =>
        simp only [IdxOk] at h
        obtain ⟨g1, g2, g3, g4⟩ := h
        intro i h1 h2 h3
        cases i with
        | zero => exact ⟨g1, g2, g3⟩
        | succ j =>
          have := ih (c2 :: cs'') g4 j (by simpa using h1)
            (by simp only [List.length_cons] at h3 ⊢; omega)
            (by simp only [List.length_cons] at h3 ⊢; omega)
          simpa using this

/-! The build invariant: establishment, preservation, and what `Finish`
makes of it. -/

theorem buildInv_first [LinearOrder α] (p : TBParams α β) (k : α) (v : β) :
    BuildInv p [k] (addOp p goodFlushRes (initState p) k v) := by
  rw [addOp_good p (initState p) k v rfl]
  have hfl : flushOp p goodFlushRes (initState p) = initState p := by
    simp [flushOp, initState]
  rw [hfl, ite_self]
  rw [addRest_pending_false p (initState p) k v rfl]
  constructor <;>
    simp [initState, chunksOf, fileDataBlocks, fileIndexKeys, IdxOk,
      segDataKeys, segIndexKeys]

theorem buildInv_add [LinearOrder α] (p : TBParams α β)
    (hsep : ∀ a b : α, a < b → a ≤ p.sep a b ∧ p.sep a b < b)
    (ks : List α) (st : TBState α β) (inv : BuildInv p ks st)
    (k : α) (v : β) (hgt : st.lastKey < k) :
    BuildInv p (ks ++ [k]) (addOp p goodFlushRes st k v) := by
  have hDne : st.dataBlock.map Prod.fst ≠ [] := by
    intro hcon
    exact inv.hdb (List.map_eq_nil_iff.1 hcon)
  have hlastD : (st.dataBlock.map Prod.fst).getLastD p.initKey = st.lastKey :=
    getLastD_of_getLast? _ _ _ inv.hlastDB
  rw [addOp_good p st k v inv.hok]
  by_cases hfl : shouldFlush p.blockSize p.blockSizeDeviation
      (p.szCur st.dataBlock) (p.szAfter st.dataBlock k v) = true
  · rw [if_pos hfl]
    have hne : st.dataBlock.isEmpty = false := by
      cases hdb : st.dataBlock with
      | nil => exact absurd hdb inv.hdb
      | cons a l => rfl
    rw [flushOp_good p st inv.hok hne]
    rw [addRest_pending_true p _ k v rfl]
    constructor
    · simpa using inv.hok
    · simpa using inv.hclosed
    · simp
    · simp
    · simp
    · simp
    · simp only []
      show fileIndexKeys (st.file ++ [Segment.data st.dataBlock]) = []
      rw [fileIndexKeys_append, inv.hnoIdxSeg]
      simp [fileIndexKeys, segIndexKeys]
    · show ∀ c ∈ chunksOf _, c ≠ []
      simp only [chunksOf]
      intro c hc
      simp only [fileDataBlocks_append] at hc
      rcases List.mem_append.1 hc with hc | hc
      · rcases List.mem_append.1 hc with hc | hc
        · exact inv.hchunksNe c (List.mem_append_left _ hc)
        · have : c = st.dataBlock.map Prod.fst := by
            simpa [fileDataBlocks, segDataKeys] using hc
          rw [this]; exact hDne
      · have : c = [k] := by simpa using hc
        rw [this]; simp
    · show IdxOk p _ (chunksOf _)
      simp only [chunksOf, fileDataBlocks_append]
      have hfd : fileDataBlocks [(Segment.data st.dataBlock : Segment α β)] =
          [st.dataBlock.map Prod.fst] := by
        simp [fileDataBlocks, segDataKeys]
      rw [hfd]
      have hmap : ((st.indexBlock ++
          [(p.sep st.lastKey k, (st.offset, p.blockBytes st.dataBlock))]).map
            Prod.fst) =
          st.indexBlock.map Prod.fst ++ [p.sep st.lastKey k] := by
        simp
      simp only [List.map_append, List.map_cons, List.map_nil]
      have hsnoc := IdxOk_snoc p (st.indexBlock.map Prod.fst)
        (fileDataBlocks st.file) (st.dataBlock.map Prod.fst) k
        (p.sep st.lastKey k) inv.hIdx
        (by rw [hlastD]) (by rw [hlastD]; exact (hsep st.lastKey k hgt).1)
        ((hsep st.lastKey k hgt).2)
      simpa using hsnoc
  · rw [if_neg hfl]
    rw [addRest_pending_false p st k v inv.hpending]
    constructor
    · simpa using inv.hok
    · simpa using inv.hclosed
    · simpa using inv.hpending
    · simp
    · simp
    · simp
    · simpa using inv.hnoIdxSeg
    · show ∀ c ∈ chunksOf _, c ≠ []
      simp only [chunksOf]
      intro c hc
      rcases List.mem_append.1 hc with hc | hc
      · exact inv.hchunksNe c (List.mem_append_left _ (by simpa using hc))
      · have : c = st.dataBlock.map Prod.fst ++ [k] := by simpa using hc
        rw [this]; simp
    · show IdxOk p _ (chunksOf _)
      simp only [chunksOf]
      have hext := IdxOk_last_extend p (st.indexBlock.map Prod.fst)
        (fileDataBlocks st.file) (st.dataBlock.map Prod.fst) k inv.hIdx hDne
        (by rw [hlastD]; exact hgt)
      simpa using hext

theorem buildInv_run [LinearOrder α] (p : TBParams α β)
    (hsep : ∀ a b : α, a < b → a ≤ p.sep a b ∧ p.sep a b < b)
    (kvs : List (α × β)) (hne : kvs ≠ [])
    (hsort : (kvs.map Prod.fst).Chain' (· < ·)) :
    BuildInv p (kvs.map Prod.fst) (runAdds p (initState p) kvs) := by
  induction kvs using List.reverseRecOn with
  | nil => exact absurd rfl hne
  | append_singleton kvs kv ih =>
    rcases kv with ⟨k, v⟩
    have hrun : runAdds p (initState p) (kvs ++ [(k, v)]) =
        addOp p goodFlushRes (runAdds p (initState p) kvs) k v := by
      simp [runAdds]
    have hsplit := List.chain'_append.1 (by simpa using hsort)
    by_cases hk : kvs = []
    · subst hk
      simp only [List.nil_append, List.map_cons, List.map_nil]
      have : runAdds p (initState p) [(k, v)] =
          addOp p goodFlushRes (initState p) k v := by
        simp [runAdds]
      rw [this]
      exact buildInv_first p k v
    · have inv := ih hk hsplit.1
      have hgt : (runAdds p (initState p) kvs).lastKey < k := by
        refine hsplit.2.2 _ ?_ k rfl
        rw [inv.hlastProc]; rfl
      have := buildInv_add p hsep (kvs.map Prod.fst) _ inv k v hgt
      rw [hrun]
      simpa using this

theorem finishOp_good_file (p : TBParams α β) (st : TBState α β)
    (hok : st.ok = true) (hne : st.dataBlock.isEmpty = false) :
    (finishOp p goodFlushRes goodFinishRes st).file =
      st.file ++ [Segment.data st.dataBlock] ++
      (if p.hasFilter then [Segment.filter] else []) ++
      [Segment.stats, Segment.metaindex,
       Segment.indexBlk (st.indexBlock ++
         [(p.shortSucc st.lastKey, (st.offset, p.blockBytes st.dataBlock))]),
       Segment.footer] := by
  rw [finishOp, flushOp_good p st hok hne]
  by_cases hf : p.hasFilter <;>
    simp [finishFilter, finishPendingIndex, finishMeta, finishIndex,
      finishFooter, writeRawBlockSeg_good, goodFinishRes, hf]

/-- C2: for every strictly increasing key sequence streamed through `Add`
and closed by `Finish` with all sink calls succeeding, and a comparator
whose `FindShortestSeparator` and `FindShortSuccessor` meet their
contracts: every data block of the produced file is nonempty; there is one
index key per block; each non-final block's index key is the shortest
separator of that block's last key and the next block's first key, is at
least the former, and is below every key of the next block; and the final
index key is the shortest successor of the overall last key (and at least
it). -/
theorem c2_index_keys_separate_blocks [LinearOrder α] (p : TBParams α β)
    (hsep : ∀ a b : α, a < b → a ≤ p.sep a b ∧ p.sep a b < b)
    (hsucc : ∀ a : α, a ≤ p.shortSucc a)
    (kvs : List (α × β)) (hne : kvs ≠ [])
    (hsort : (kvs.map Prod.fst).Chain' (· < ·)) :
    (fileIndexKeys (buildTable p kvs).file).length =
      (fileDataBlocks (buildTable p kvs).file).length ∧
    (∀ b ∈ fileDataBlocks (buildTable p kvs).file, b ≠ []) ∧
    (∀ i, i + 1 < (fileDataBlocks (buildTable p kvs).file).length →
      (fileIndexKeys (buildTable p kvs).file).getD i p.initKey =
        p.sep
          (((fileDataBlocks (buildTable p kvs).file).getD i []).getLastD
            p.initKey)
          (((fileDataBlocks (buildTable p kvs).file).getD (i + 1) []).headD
            p.initKey) ∧
      ((fileDataBlocks (buildTable p kvs).file).getD i []).getLastD
          p.initKey ≤
        (fileIndexKeys (buildTable p kvs).file).getD i p.initKey ∧
      ∀ x ∈ (fileDataBlocks (buildTable p kvs).file).getD (i + 1) [],
        (fileIndexKeys (buildTable p kvs).file).getD i p.initKey < x) ∧
    (fileIndexKeys (buildTable p kvs).file).getLast? =
      some (p.shortSucc ((kvs.map Prod.fst).getLastD p.initKey)) ∧
    (kvs.map Prod.fst).getLastD p.initKey ≤
      (fileIndexKeys (buildTable p kvs).file).getLastD p.initKey := by
  have inv := buildInv_run p hsep kvs hne hsort
  set st := runAdds p (initState p) kvs with hst
  have hne2 : st.dataBlock.isEmpty = false := by
    cases hdb : st.dataBlock with
    | nil => exact absurd hdb inv.hdb
    | cons a l => rfl
  have hfile : (buildTable p kvs).file =
      st.file ++ [Segment.data st.dataBlock] ++
      (if p.hasFilter then [Segment.filter] else []) ++
      [Segment.stats, Segment.metaindex,
       Segment.indexBlk (st.indexBlock ++
         [(p.shortSucc st.lastKey, (st.offset, p.blockBytes st.dataBlock))]),
       Segment.footer] := by
    rw [buildTable, ← hst]
    exact finishOp_good_file p st inv.hok hne2
  have hB : fileDataBlocks (buildTable p kvs).file = chunksOf st := by
    rw [hfile, chunksOf]
    by_cases hf : p.hasFilter <;>
      simp [fileDataBlocks_append, fileDataBlocks_cons, fileDataBlocks_nil,
        segDataKeys, hf]
  have hK : fileIndexKeys (buildTable p kvs).file =
      st.indexBlock.map Prod.fst ++ [p.shortSucc st.lastKey] := by
    rw [hfile]
    by_cases hf : p.hasFilter <;>
      simp [fileIndexKeys_append, fileIndexKeys_cons, fileIndexKeys_nil,
        segIndexKeys, hf, inv.hnoIdxSeg]
  have hlen := IdxOk_length p _ _ inv.hIdx
  have hlastk : (kvs.map Prod.fst).getLastD p.initKey = st.lastKey :=
    getLastD_of_getLast? _ _ _ inv.hlastProc
  refine ⟨?_, ?_, ?_, ?_, ?_⟩
  · rw [hB, hK]
    simpa using hlen
  · rw [hB]; exact inv.hchunksNe
  · intro i h3
    rw [hB] at h3
    have h1k : i < (st.indexBlock.map Prod.fst).length := by omega
    have h2c : i < (chunksOf st).length := by omega
    obtain ⟨g1, g2, g3⟩ := IdxOk_get p _ _ inv.hIdx i h1k h2c h3
    have eK : (fileIndexKeys (buildTable p kvs).file).getD i p.initKey =
        (st.indexBlock.map Prod.fst).get ⟨i, h1k⟩ := by
      rw [hK, List.getD_append _ _ _ _ h1k, List.getD_eq_getElem _ _ h1k]
      simp
    have eB1 : (fileDataBlocks (buildTable p kvs).file).getD i [] =
        (chunksOf st).get ⟨i, h2c⟩ := by
      rw [hB, List.getD_eq_getElem _ _ h2c]
      simp
    have eB2 : (fileDataBlocks (buildTable p kvs).file).getD (i + 1) [] =
        (chunksOf st).get ⟨i + 1, h3⟩ := by
      rw [hB, List.getD_eq_getElem _ _ h3]
      simp
    rw [eK, eB1, eB2]
    exact ⟨g1, g2, g3⟩
  · rw [hK, hlastk]
    simp
  · rw [hK, hlastk]
    have : (st.indexBlock.map Prod.fst ++ [p.shortSucc st.lastKey]).getLastD
        p.initKey = p.shortSucc st.lastKey := by
      simp [List.getLastD_eq_getLast?]
    rw [this]
    exact hsucc st.lastKey

theorem c2_index_keys_separate_blocks_witness :
    ([((1 : Nat), ()), (2, ()), (3, ())] ≠ ([] : List (Nat × Unit))) ∧
    (([((1 : Nat), ()), (2, ()), (3, ())].map Prod.fst).Chain' (· < ·)) ∧
    (fileIndexKeys
        (buildTable c2ParamsW [((1 : Nat), ()), (2, ()), (3, ())]).file).length =
      (fileDataBlocks
        (buildTable c2ParamsW [((1 : Nat), ()), (2, ()), (3, ())]).file).length :=
  ⟨by decide, by simp [List.chain'_cons],
   (c2_index_keys_separate_blocks c2ParamsW
     (fun a b h => ⟨le_refl a, h⟩) (fun a => Nat.le_succ a)
     [((1 : Nat), ()), (2, ()), (3, ())] (by decide)
     (by simp [List.chain'_cons])).1⟩

/-! Length, extension and decomposition facts about the WriteBatch
decoders. -/

theorem getVarint32_length (l : List Nat) (n : Nat) (r : List Nat)
    (h : getVarint32 l = some (n, r)) : r.length < l.length := by
  induction l generalizing n r with
  | nil => simp [getVarint32] at h
  | cons b bs ih =>
    simp only [getVarint32] at h
    by_cases hb : b < 128
    · rw [if_pos hb] at h
      obtain ⟨rfl, rfl⟩ : b = n ∧ bs = r := by
        constructor <;> [exact congrArg Prod.fst (Option.some.inj h);
          exact congrArg Prod.snd (Option.some.inj h)]
      simp
    · rw [if_neg hb] at h
      cases hv : getVarint32 bs with
      | none => rw [hv] at h; simp at h
      | some pr =>
        rw [hv] at h
        obtain ⟨n2, r2⟩ := pr
        have := ih n2 r2 hv
        have hr : r2 = r := by
          have := Option.some.inj h
          exact congrArg Prod.snd this
        subst hr
        simp only [List.length_cons]
        omega

theorem getVarint32_extend (l t : List Nat) (n : Nat) (r : List Nat)
    (h : getVarint32 l = some (n, r)) :
    getVarint32 (l ++ t) = some (n, r ++ t) := by
  induction l generalizing n r with
  | nil => simp [getVarint32] at h
  | cons b bs ih =>
    simp only [getVarint32] at h ⊢
    by_cases hb : b < 128
    · rw [if_pos hb] at h ⊢
      obtain ⟨rfl, rfl⟩ : b = n ∧ bs = r := by
        constructor <;> [exact congrArg Prod.fst (Option.some.inj h);
          exact congrArg Prod.snd (Option.some.inj h)]
      rfl
    · rw [if_neg hb] at h ⊢
      cases hv : getVarint32 bs with
      | none => rw [hv] at h; simp at h
      | some pr =>
        rw [hv] at h
        obtain ⟨n2, r2⟩ := pr
        simp only [List.append_eq]
        rw [ih n2 r2 hv]
        have := Option.some.inj h
        simp only [Prod.mk.injEq] at this
        simp [this.1, this.2]

theorem getVarint32_decomp (l : List Nat) (n : Nat) (r : List Nat)
    (h : getVarint32 l = some (n, r)) :
    ∃ pre, l = pre ++ r ∧ getVarint32 pre = some (n, []) ∧ pre ≠ [] := by
  induction l generalizing n r with
  | nil => simp [getVarint32] at h
  | cons b bs ih =>
    simp only [getVarint32] at h
    by_cases hb : b < 128
    · rw [if_pos hb] at h
      obtain ⟨rfl, rfl⟩ : b = n ∧ bs = r := by
        constructor <;> [exact congrArg Prod.fst (Option.some.inj h);
          exact congrArg Prod.snd (Option.some.inj h)]
      exact ⟨[b], rfl, by simp [getVarint32, hb], by simp⟩
    · rw [if_neg hb] at h
      cases hv : getVarint32 bs with
      | none => rw [hv] at h; simp at h
      | some pr =>
        rw [hv] at h
        obtain ⟨n2, r2⟩ := pr
        obtain ⟨pre, hpre1, hpre2, hpre3⟩ := ih n2 r2 hv
        have hinj := Option.some.inj h
        simp only [Prod.mk.injEq] at hinj
        refine ⟨b :: pre, ?_, ?_, by simp⟩
        · rw [← hinj.2, List.cons_append, hpre1]
        · simp only [getVarint32, if_neg hb, hpre2, ← hinj.1]

theorem getVarint32_exact_dropLast (l : List Nat) (n : Nat)
    (h : getVarint32 l = some (n, [])) : getVarint32 l.dropLast = none := by
  induction l generalizing n with
  | nil => simp [getVarint32] at h
  | cons b bs ih =>
    simp only [getVarint32] at h
    by_cases hb : b < 128
    · rw [if_pos hb] at h
      have hbs : bs = [] := congrArg Prod.snd (Option.some.inj h)
      subst hbs
      rfl
    · rw [if_neg hb] at h
      cases hv : getVarint32 bs with
      | none => rw [hv] at h; simp at h
      | some pr =>
        rw [hv] at h
        obtain ⟨n2, r2⟩ := pr
        have hr2 : r2 = [] := congrArg Prod.snd (Option.some.inj h)
        subst hr2
        have hbs : bs ≠ [] := by
          intro hcon; rw [hcon] at hv; simp [getVarint32] at hv
        have hdl : (b :: bs).dropLast = b :: bs.dropLast := by
          cases bs with
          | nil => exact absurd rfl hbs
          | cons c cs => rfl
        rw [hdl]
        simp only [getVarint32, if_neg hb, ih n2 hv]

theorem getLengthPrefixed_length (l : List Nat) (s r : List Nat)
    (h : getLengthPrefixed l = some (s, r)) : r.length < l.length := by
  unfold getLengthPrefixed at h
  cases hv : getVarint32 l with
  | none => rw [hv] at h; simp at h
  | some pr =>
    rw [hv] at h
    obtain ⟨n, r2⟩ := pr
    have h : (if n ≤ r2.length then some (r2.take n, r2.drop n) else none) =
        some (s, r) := h
    by_cases hn : n ≤ r2.length
    · rw [if_pos hn] at h
      have hr : r2.drop n = r := congrArg Prod.snd (Option.some.inj h)
      have h1 := getVarint32_length l n r2 hv
      rw [← hr]
      have : (r2.drop n).length ≤ r2.length := by simp
      omega
    · rw [if_neg hn] at h; simp at h

theorem getLengthPrefixed_extend (l t : List Nat) (s r : List Nat)
    (h : getLengthPrefixed l = some (s, r)) :
    getLengthPrefixed (l ++ t) = some (s, r ++ t) := by
  unfold getLengthPrefixed at h ⊢
  cases hv : getVarint32 l with
  | none => rw [hv] at h; simp at h
  | some pr =>
    rw [hv] at h
    obtain ⟨n, r2⟩ := pr
    have h : (if n ≤ r2.length then some (r2.take n, r2.drop n) else none) =
        some (s, r) := h
    by_cases hn : n ≤ r2.length
    · rw [if_pos hn] at h
      have hs : r2.take n = s := congrArg Prod.fst (Option.some.inj h)
      have hr : r2.drop n = r := congrArg Prod.snd (Option.some.inj h)
      rw [getVarint32_extend l t n r2 hv]
      show (if n ≤ (r2 ++ t).length then
          some ((r2 ++ t).take n, (r2 ++ t).drop n) else none) = some (s, r ++ t)
      rw [if_pos (by simp; omega), List.take_append_of_le_length hn,
        List.drop_append_of_le_length hn, hs, hr]
    · rw [if_neg hn] at h; simp at h

theorem getLengthPrefixed_decomp (l : List Nat) (s r : List Nat)
    (h : getLengthPrefixed l = some (s, r)) :
    ∃ pre, l = pre ++ r ∧ getLengthPrefixed pre = some (s, []) ∧ pre ≠ [] := by
  unfold getLengthPrefixed at h
  cases hv : getVarint32 l with
  | none => rw [hv] at h; simp at h
  | some pr =>
    rw [hv] at h
    obtain ⟨n, r2⟩ := pr
    have h : (if n ≤ r2.length then some (r2.take n, r2.drop n) else none) =
        some (s, r) := h
    by_cases hn : n ≤ r2.length
    · rw [if_pos hn] at h
      have hs : r2.take n = s := congrArg Prod.fst (Option.some.inj h)
      have hr : r2.drop n = r := congrArg Prod.snd (Option.some.inj h)
      obtain ⟨vb, hvb1, hvb2, hvb3⟩ := getVarint32_decomp l n r2 hv
      refine ⟨vb ++ s, ?_, ?_, by simp [hvb3]⟩
      · rw [hvb1, ← hs, ← hr, List.append_assoc, List.take_append_drop]
      · unfold getLengthPrefixed
        rw [getVarint32_extend vb s n [] hvb2, List.nil_append]
        have hlen : s.length = n := by
          rw [← hs]; exact List.length_take_of_le hn
        show (if n ≤ s.length then some (s.take n, s.drop n) else none) =
          some (s, [])
        rw [if_pos (by omega), List.take_of_length_le (by omega),
          List.drop_eq_nil_of_le (by omega)]
    · rw [if_neg hn] at h; simp at h

theorem getLengthPrefixed_exact_dropLast (l : List Nat) (s : List Nat)
    (h : getLengthPrefixed l = some (s, [])) :
    getLengthPrefixed l.dropLast = none := by
  unfold getLengthPrefixed at h
  cases hv : getVarint32 l with
  | none => rw [hv] at h; simp at h
  | some pr =>
    rw [hv] at h
    obtain ⟨n, r2⟩ := pr
    have h : (if n ≤ r2.length then some (r2.take n, r2.drop n) else none) =
        some (s, []) := h
    by_cases hn : n ≤ r2.length
    · rw [if_pos hn] at h
      have hr : r2.drop n = [] := congrArg Prod.snd (Option.some.inj h)
      have hlen : r2.length = n := by
        have := List.drop_eq_nil_iff.1 hr
        omega
      obtain ⟨vb, hvb1, hvb2, hvb3⟩ := getVarint32_decomp l n r2 hv
      rcases Nat.eq_zero_or_pos n with hn0 | hn0
      · have hr2 : r2 = [] := List.length_eq_zero.1 (by omega)
        subst hr2
        rw [List.append_nil] at hvb1
        subst hvb1
        unfold getLengthPrefixed
        rw [getVarint32_exact_dropLast l n hvb2]
      · have hr2ne : r2 ≠ [] := by
          intro hcon; rw [hcon] at hlen; simp at hlen; omega
        have hdl : l.dropLast = vb ++ r2.dropLast := by
          rw [hvb1, List.dropLast_append_of_ne_nil _ hr2ne]
        rw [hdl]
        unfold getLengthPrefixed
        rw [getVarint32_extend vb r2.dropLast n [] hvb2, List.nil_append]
        show (if n ≤ r2.dropLast.length then
            some (r2.dropLast.take n, r2.dropLast.drop n) else none) = none
        rw [if_neg (by simp [List.length_dropLast]; omega)]
    · rw [if_neg hn] at h; simp at h

theorem parseRecord_ok_cases (l : List Nat) (r : BRec) (rest : List Nat)
    (h : parseRecord l = .ok r rest) :
    ∃ tag rest0, l = tag :: rest0 ∧
      ((tag = 1 ∧ ∃ k v r1, getLengthPrefixed rest0 = some (k, r1) ∧
          getLengthPrefixed r1 = some (v, rest) ∧ r = .put k v) ∨
       (tag = 0 ∧ ∃ k, getLengthPrefixed rest0 = some (k, rest) ∧
          r = .del k) ∨
       (tag = 3 ∧ ∃ k v r1, getLengthPrefixed rest0 = some (k, r1) ∧
          getLengthPrefixed r1 = some (v, rest) ∧ r = .merge k v) ∨
       (tag = 2 ∧ ∃ b, getLengthPrefixed rest0 = some (b, rest) ∧
          r = .logData b)) := by
  cases l with
  | nil => simp [parseRecord] at h
  | cons tag rest0 =>
    refine ⟨tag, rest0, rfl, ?_⟩
    by_cases h1 : tag = 1
    · subst h1
      cases hk : getLengthPrefixed rest0 with
      | none => simp [parseRecord, hk] at h
      | some pr1 =>
        obtain ⟨k, r1⟩ := pr1
        cases hv : getLengthPrefixed r1 with
        | none => simp [parseRecord, hk, hv] at h
        | some pr2 =>
          obtain ⟨v, r2⟩ := pr2
          simp only [parseRecord, hk, hv, if_pos] at h
          cases h
          exact Or.inl ⟨rfl, k, v, r1, rfl, hv, rfl⟩
    · by_cases h0 : tag = 0
      · subst h0
        cases hk : getLengthPrefixed rest0 with
        | none => simp [parseRecord, hk] at h
        | some pr1 =>
          obtain ⟨k, r1⟩ := pr1
          simp only [parseRecord, hk, h1, if_false, if_pos] at h
          cases h
          exact Or.inr (Or.inl ⟨rfl, k, rfl, rfl⟩)
      · by_cases h3 : tag = 3
        · subst h3
          cases hk : getLengthPrefixed rest0 with
          | none => simp [parseRecord, hk] at h
          | some pr1 =>
            obtain ⟨k, r1⟩ := pr1
            cases hv : getLengthPrefixed r1 with
            | none => simp [parseRecord, hk, hv] at h
            | some pr2 =>
              obtain ⟨v, r2⟩ := pr2
              simp only [parseRecord, hk, hv] at h
              simp only [show (3 : Nat) ≠ 1 by decide,
                show (3 : Nat) ≠ 0 by decide, if_false, if_pos] at h
              cases h
              exact Or.inr (Or.inr (Or.inl ⟨rfl, k, v, r1, rfl, hv, rfl⟩))
        · by_cases h2 : tag = 2
          · subst h2
            cases hb : getLengthPrefixed rest0 with
            | none => simp [parseRecord, hb] at h
            | some pr1 =>
              obtain ⟨b, r1⟩ := pr1
              simp only [parseRecord, hb] at h
              simp only [show (2 : Nat) ≠ 1 by decide,
                show (2 : Nat) ≠ 0 by decide, show (2 : Nat) ≠ 3 by decide,
                if_false, if_pos] at h
              cases h
              exact Or.inr (Or.inr (Or.inr ⟨rfl, b, rfl, rfl⟩))
          · simp [parseRecord, h1, h0, h3, h2] at h

theorem parseRecord_length2 (l : List Nat) (r : BRec) (rest : List Nat)
    (h : parseRecord l = .ok r rest) : rest.length + 2 ≤ l.length := by
  obtain ⟨tag, rest0, rfl, hc⟩ := parseRecord_ok_cases l r rest h
  rcases hc with ⟨_, k, v, r1, hk, hv, _⟩ | ⟨_, k, hk, _⟩ |
    ⟨_, k, v, r1, hk, hv, _⟩ | ⟨_, b, hb, _⟩
  · have h1 := getLengthPrefixed_length _ _ _ hk
    have h2 := getLengthPrefixed_length _ _ _ hv
    simp only [List.length_cons]
    omega
  · have h1 := getLengthPrefixed_length _ _ _ hk
    simp only [List.length_cons]
    omega
  · have h1 := getLengthPrefixed_length _ _ _ hk
    have h2 := getLengthPrefixed_length _ _ _ hv
    simp only [List.length_cons]
    omega
  · have h1 := getLengthPrefixed_length _ _ _ hb
    simp only [List.length_cons]
    omega

theorem parseRecord_length (l : List Nat) (r : BRec) (rest : List Nat)
    (h : parseRecord l = .ok r rest) : rest.length < l.length := by
  have := parseRecord_length2 l r rest h
  omega

theorem parseRecord_extend (l t : List Nat) (r : BRec) (rest : List Nat)
    (h : parseRecord l = .ok r rest) :
    parseRecord (l ++ t) = .ok r (rest ++ t) := by
  obtain ⟨tag, rest0, rfl, hc⟩ := parseRecord_ok_cases _ r rest h
  rcases hc with ⟨h1, k, v, r1, hk, hv, rfl⟩ | ⟨h1, k, hk, rfl⟩ |
    ⟨h1, k, v, r1, hk, hv, rfl⟩ | ⟨h1, b, hb, rfl⟩
  · subst h1
    simp [parseRecord, getLengthPrefixed_extend _ t _ _ hk,
      getLengthPrefixed_extend _ t _ _ hv]
  · subst h1
    simp [parseRecord, getLengthPrefixed_extend _ t _ _ hk]
  · subst h1
    simp [parseRecord, getLengthPrefixed_extend _ t _ _ hk,
      getLengthPrefixed_extend _ t _ _ hv]
  · subst h1
    simp [parseRecord, getLengthPrefixed_extend _ t _ _ hb]

theorem parseRecord_decomp (l : List Nat) (r : BRec) (rest : List Nat)
    (h : parseRecord l = .ok r rest) :
    ∃ pre, l = pre ++ rest ∧ parseRecord pre = .ok r [] ∧ pre ≠ [] := by
  obtain ⟨tag, rest0, rfl, hc⟩ := parseRecord_ok_cases _ r rest h
  rcases hc with ⟨h1, k, v, r1, hk, hv, rfl⟩ | ⟨h1, k, hk, rfl⟩ |
    ⟨h1, k, v, r1, hk, hv, rfl⟩ | ⟨h1, b, hb, rfl⟩
  · subst h1
    obtain ⟨pre2, hp2a, hp2b, hp2c⟩ := getLengthPrefixed_decomp _ _ _ hv
    obtain ⟨pre1, hp1a, hp1b, hp1c⟩ := getLengthPrefixed_decomp _ _ _ hk
    refine ⟨1 :: (pre1 ++ pre2), ?_, ?_, by simp⟩
    · rw [hp1a, hp2a]
      simp [List.append_assoc]
    · have e1 : getLengthPrefixed (pre1 ++ pre2) = some (k, pre2) := by
        simpa using getLengthPrefixed_extend pre1 pre2 k [] hp1b
      simp [parseRecord, e1, hp2b]
  · subst h1
    obtain ⟨pre1, hp1a, hp1b, hp1c⟩ := getLengthPrefixed_decomp _ _ _ hk
    refine ⟨0 :: pre1, ?_, ?_, by simp⟩
    · rw [hp1a]; rfl
    · simp [parseRecord, hp1b]
  · subst h1
    obtain ⟨pre2, hp2a, hp2b, hp2c⟩ := getLengthPrefixed_decomp _ _ _ hv
    obtain ⟨pre1, hp1a, hp1b, hp1c⟩ := getLengthPrefixed_decomp _ _ _ hk
    refine ⟨3 :: (pre1 ++ pre2), ?_, ?_, by simp⟩
    · rw [hp1a, hp2a]
      simp [List.append_assoc]
    · have e1 : getLengthPrefixed (pre1 ++ pre2) = some (k, pre2) := by
        simpa using getLengthPrefixed_extend pre1 pre2 k [] hp1b
      simp [parseRecord, e1, hp2b]
  · subst h1
    obtain ⟨pre1, hp1a, hp1b, hp1c⟩ := getLengthPrefixed_decomp _ _ _ hb
    refine ⟨2 :: pre1, ?_, ?_, by simp⟩
    · rw [hp1a]; rfl
    · simp [parseRecord, hp1b]

theorem parseRecord_exact_dropLast (l : List Nat) (r : BRec)
    (h : parseRecord l = .ok r []) :
    parseRecord l.dropLast = .fail (recCorruptionMsg r) := by
  obtain ⟨tag, rest0, rfl, hc⟩ := parseRecord_ok_cases _ r [] h
  rcases hc with ⟨h1, k, v, r1, hk, hv, rfl⟩ | ⟨h1, k, hk, rfl⟩ |
    ⟨h1, k, v, r1, hk, hv, rfl⟩ | ⟨h1, b, hb, rfl⟩
  · subst h1
    obtain ⟨pre1, hp1a, hp1b, hp1c⟩ := getLengthPrefixed_decomp _ _ _ hk
    have hr1ne : r1 ≠ [] := by
      intro hcon
      rw [hcon] at hv
      simp [getLengthPrefixed, getVarint32] at hv
    have hrest0ne : rest0 ≠ [] := by
      intro hcon
      rw [hcon] at hk
      simp [getLengthPrefixed, getVarint32] at hk
    have hdl : (1 :: rest0).dropLast = 1 :: rest0.dropLast := by
      cases rest0 with
      | nil => exact absurd rfl hrest0ne
      | cons x xs => rfl
    rw [hdl, hp1a, List.dropLast_append_of_ne_nil _ hr1ne]
    have e1 : getLengthPrefixed (pre1 ++ r1.dropLast) =
        some (k, r1.dropLast) := by
      simpa using getLengthPrefixed_extend pre1 r1.dropLast k [] hp1b
    simp [parseRecord, e1, getLengthPrefixed_exact_dropLast _ _ hv,
      recCorruptionMsg]
  · subst h1
    have hrest0ne : rest0 ≠ [] := by
      intro hcon
      rw [hcon] at hk
      simp [getLengthPrefixed, getVarint32] at hk
    have hdl : (0 :: rest0).dropLast = 0 :: rest0.dropLast := by
      cases rest0 with
      | nil => exact absurd rfl hrest0ne
      | cons x xs => rfl
    rw [hdl]
    simp [parseRecord, getLengthPrefixed_exact_dropLast _ _ hk,
      recCorruptionMsg]
  · subst h1
    obtain ⟨pre1, hp1a, hp1b, hp1c⟩ := getLengthPrefixed_decomp _ _ _ hk
    have hr1ne : r1 ≠ [] := by
      intro hcon
      rw [hcon] at hv
      simp [getLengthPrefixed, getVarint32] at hv
    have hrest0ne : rest0 ≠ [] := by
      intro hcon
      rw [hcon] at hk
      simp [getLengthPrefixed, getVarint32] at hk
    have hdl : (3 :: rest0).dropLast = 3 :: rest0.dropLast := by
      cases rest0 with
      | nil => exact absurd rfl hrest0ne
      | cons x xs => rfl
    rw [hdl, hp1a, List.dropLast_append_of_ne_nil _ hr1ne]
    have e1 : getLengthPrefixed (pre1 ++ r1.dropLast) =
        some (k, r1.dropLast) := by
      simpa using getLengthPrefixed_extend pre1 r1.dropLast k [] hp1b
    simp [parseRecord, e1, getLengthPrefixed_exact_dropLast _ _ hv,
      recCorruptionMsg]
  · subst h1
    have hrest0ne : rest0 ≠ [] := by
      intro hcon
      rw [hcon] at hb
      simp [getLengthPrefixed, getVarint32] at hb
    have hdl : (2 :: rest0).dropLast = 2 :: rest0.dropLast := by
      cases rest0 with
      | nil => exact absurd rfl hrest0ne
      | cons x xs => rfl
    rw [hdl]
    simp [parseRecord, getLengthPrefixed_exact_dropLast _ _ hb,
      recCorruptionMsg]

theorem parseRecordsAux_congr (f1 : Nat) : ∀ (f2 : Nat) (p : List Nat),
    p.length ≤ f1 → p.length ≤ f2 →
    parseRecordsAux f1 p = parseRecordsAux f2 p := by
  induction f1 with
  | zero =>
    intro f2 p h1 h2
    cases p with
    | nil => cases f2 <;> rfl
    | cons b bs => simp at h1
  | succ f1 ih =>
    intro f2 p h1 h2
    cases p with
    | nil => cases f2 <;> rfl
    | cons b bs =>
      cases f2 with
      | zero => simp at h2
      | succ f2 =>
        cases hpr : parseRecord (b :: bs) with
        | fail m => simp [parseRecordsAux, hpr]
        | ok r rest =>
          have hlt := parseRecord_length _ _ _ hpr
          simp only [parseRecordsAux, hpr]
          rw [ih f2 rest (by simp only [List.length_cons] at h1 hlt ⊢; omega)
            (by simp only [List.length_cons] at h2 hlt ⊢; omega)]

theorem parseRecords_eq_cons (p : List Nat) (hp : p ≠ []) :
    parseRecords p =
      (match parseRecord p with
       | .ok r rest => ((r :: (parseRecords rest).1), (parseRecords rest).2)
       | .fail m => ([], some m)) := by
  cases p with
  | nil => exact absurd rfl hp
  | cons b bs =>
    show parseRecordsAux (bs.length + 1) (b :: bs) = _
    cases hpr : parseRecord (b :: bs) with
    | fail m => simp [parseRecordsAux, hpr]
    | ok r rest =>
      have hlt := parseRecord_length _ _ _ hpr
      simp only [parseRecordsAux, hpr]
      unfold parseRecords
      rw [parseRecordsAux_congr bs.length rest.length rest
        (by simp only [List.length_cons] at hlt; omega) le_rfl]

theorem parseRecords_ne_nil (p : List Nat) (hp : p ≠ [])
    (h : (parseRecords p).2 = none) : (parseRecords p).1 ≠ [] := by
  rw [parseRecords_eq_cons p hp] at h ⊢
  cases hpr : parseRecord p with
  | fail m =>
    rw [hpr] at h
    exact Option.noConfusion (show (some m : Option String) = none from h)
  | ok r rest => exact List.cons_ne_nil r (parseRecords rest).1

theorem parseRecords_append_aux (n : Nat) : ∀ (p1 p2 : List Nat),
    p1.length ≤ n → (parseRecords p1).2 = none →
    parseRecords (p1 ++ p2) =
      ((parseRecords p1).1 ++ (parseRecords p2).1, (parseRecords p2).2) := by
  induction n with
  | zero =>
    intro p1 p2 h1 _
    have hnil : p1 = [] := List.length_eq_zero.1 (by omega)
    subst hnil
    simp [parseRecords, parseRecordsAux]
  | succ n ih =>
    intro p1 p2 h1 h2
    cases p1 with
    | nil => simp [parseRecords, parseRecordsAux]
    | cons b bs =>
      cases hpr : parseRecord (b :: bs) with
      | fail m =>
        rw [parseRecords_eq_cons _ (by simp)] at h2
        rw [hpr] at h2
        simp at h2
      | ok r rest =>
        have hlt := parseRecord_length _ _ _ hpr
        have hcons1 := parseRecords_eq_cons (b :: bs) (by simp)
        rw [hcons1, hpr] at h2
        simp only at h2
        have ih2 := ih rest p2
          (by simp only [List.length_cons] at h1 hlt; omega) h2
        have hext := parseRecord_extend _ p2 _ _ hpr
        rw [show (b :: bs) ++ p2 = b :: (bs ++ p2) from rfl]
        rw [parseRecords_eq_cons _ (by simp)]
        rw [show parseRecord (b :: (bs ++ p2)) = .ok r (rest ++ p2) from hext]
        rw [hcons1, hpr]
        simp only [ih2]
        simp

theorem parseRecords_append_of_ok (p1 p2 : List Nat)
    (h : (parseRecords p1).2 = none) :
    parseRecords (p1 ++ p2) =
      ((parseRecords p1).1 ++ (parseRecords p2).1, (parseRecords p2).2) :=
  parseRecords_append_aux p1.length p1 p2 le_rfl h

theorem parseRecords_dropLast_aux (n : Nat) : ∀ (p : List Nat),
    p.length ≤ n → p ≠ [] → (parseRecords p).2 = none →
    parseRecords p.dropLast =
      ((parseRecords p).1.dropLast,
       some (recCorruptionMsg ((parseRecords p).1.getLastD (BRec.del [])))) := by
  induction n with
  | zero =>
    intro p h1 hp _
    cases p with
    | nil => exact absurd rfl hp
    | cons b bs => simp at h1
  | succ n ih =>
    intro p h1 hp h2
    cases hpq : p with
    | nil => exact absurd hpq hp
    | cons b bs =>
    subst hpq
    cases hpr : parseRecord (b :: bs) with
    | fail m =>
      rw [parseRecords_eq_cons _ (by simp), hpr] at h2
      simp at h2
    | ok r rest =>
      have hlt := parseRecord_length _ _ _ hpr
      have hlt2 := parseRecord_length2 _ _ _ hpr
      have hcons1 := parseRecords_eq_cons (b :: bs) (by simp)
      rw [hcons1, hpr] at h2
      simp only at h2
      by_cases hrest : rest = []
      · subst hrest
        have hfail := parseRecord_exact_dropLast _ _ hpr
        have hdlne : (b :: bs).dropLast ≠ [] := by
          have : (b :: bs).length = bs.length + 1 := rfl
          have hlen : (b :: bs).dropLast.length = bs.length := by simp
          intro hcon
          rw [hcon] at hlen
          simp only [List.length_cons] at hlt2
          simp at hlen
          omega
        rw [parseRecords_eq_cons _ hdlne, hfail]
        rw [hcons1, hpr]
        have hrecs : parseRecords ([] : List Nat) = ([], none) := rfl
        simp [hrecs]
      · obtain ⟨pre, hpre1, hpre2, hpre3⟩ := parseRecord_decomp _ _ _ hpr
        have hdl : (b :: bs).dropLast = pre ++ rest.dropLast := by
          rw [hpre1, List.dropLast_append_of_ne_nil _ hrest]
        have hext : parseRecord (pre ++ rest.dropLast) =
            .ok r ([] ++ rest.dropLast) := parseRecord_extend _ _ _ _ hpre2
        rw [List.nil_append] at hext
        have ihr := ih rest (by simp only [List.length_cons] at h1 hlt; omega)
          hrest h2
        have hrne := parseRecords_ne_nil rest hrest h2
        have hdlne : (b :: bs).dropLast ≠ [] := by
          rw [hdl]
          simp [hpre3]
        rw [hdl] at hdlne ⊢
        rw [parseRecords_eq_cons _ hdlne, hext]
        show (r :: (parseRecords rest.dropLast).1,
              (parseRecords rest.dropLast).2) = _
        rw [ihr, hcons1, hpr]
        cases hq : (parseRecords rest).1 with
        | nil => exact absurd hq hrne
        | cons x xs =>
          simp [hq]

/-! Replay sequence assignment. -/

theorem replayEntries_length (s : Nat) (recs : List BRec) :
    (replayEntries s recs).length = (recs.filter countedRec).length := by
  induction recs generalizing s with
  | nil => rfl
  | cons r rest ih =>
    by_cases hc : countedRec r = true
    · simp [replayEntries, hc, List.filter_cons, ih]
    · simp [replayEntries, hc, List.filter_cons, ih]

theorem replayEntries_getD (recs : List BRec) : ∀ (s i : Nat),
    i < (recs.filter countedRec).length →
    (replayEntries s recs).getD i (entryOf (BRec.del []) 0) =
      entryOf ((recs.filter countedRec).getD i (BRec.del [])) (s + i) := by
  induction recs with
  | nil => intro s i h2; simp at h2
  | cons r rest ih =>
    intro s i h2
    by_cases hc : countedRec r = true
    · have hrw : replayEntries s (r :: rest) =
          entryOf r s :: replayEntries (s + 1) rest := by
        simp [replayEntries, hc]
      have hfil : (r :: rest).filter countedRec =
          r :: rest.filter countedRec := List.filter_cons_of_pos hc
      rw [hrw, hfil]
      cases i with
      | zero => simp
      | succ j =>
        rw [hfil] at h2
        simp only [List.getD_cons_succ]
        rw [ih (s + 1) j (by simpa using h2)]
        congr 1
        omega
    · have hrw : replayEntries s (r :: rest) = replayEntries s rest := by
        simp [replayEntries, hc]
      have hfil : (r :: rest).filter countedRec = rest.filter countedRec :=
        List.filter_cons_of_neg (by simpa using hc)
      rw [hrw, hfil]
      rw [hfil] at h2
      exact ih s i h2

theorem replayEntries_append (s : Nat) (r1 r2 : List BRec) :
    replayEntries s (r1 ++ r2) =
      replayEntries s r1 ++
        replayEntries (s + (r1.filter countedRec).length) r2 := by
  induction r1 generalizing s with
  | nil => simp [replayEntries]
  | cons r rest ih =>
    by_cases hc : countedRec r = true
    · rw [List.cons_append]
      rw [show replayEntries s (r :: (rest ++ r2)) =
          entryOf r s :: replayEntries (s + 1) (rest ++ r2) from by
        simp [replayEntries, hc]]
      rw [ih (s + 1)]
      rw [show replayEntries s (r :: rest) =
          entryOf r s :: replayEntries (s + 1) rest from by
        simp [replayEntries, hc]]
      rw [List.filter_cons_of_pos hc]
      simp only [List.length_cons, List.cons_append]
      rw [show s + 1 + (rest.filter countedRec).length =
          s + ((rest.filter countedRec).length + 1) from by omega]
    · rw [List.cons_append]
      rw [show replayEntries s (r :: (rest ++ r2)) =
          replayEntries s (rest ++ r2) from by simp [replayEntries, hc]]
      rw [ih s]
      rw [show replayEntries s (r :: rest) = replayEntries s rest from by
        simp [replayEntries, hc]]
      rw [List.filter_cons_of_neg (by simpa using hc)]

/-- C6: replay of a WriteBatch with header sequence `s` inserts the i-th
counted record of the payload with sequence `s + i`; LogData records are
not inserted, consume no sequence number, and `PutLogData` leaves the
header count unchanged. -/
theorem c6_replay_sequence_assignment (b : WBatch) (mem : List MemEntry) :
    (insertInto b mem).1 =
      mem ++ replayEntries b.seq (parseRecords b.payload).1 ∧
    (insertInto b mem).2 = (parseRecords b.payload).2 ∧
    (replayEntries b.seq (parseRecords b.payload).1).length =
      ((parseRecords b.payload).1.filter countedRec).length ∧
    (∀ i, i < ((parseRecords b.payload).1.filter countedRec).length →
      (replayEntries b.seq (parseRecords b.payload).1).getD i
          (entryOf (BRec.del []) 0) =
        entryOf (((parseRecords b.payload).1.filter countedRec).getD i
          (BRec.del [])) (b.seq + i)) ∧
    (∀ blob, (wbPutLogData b blob).count = b.count) :=
  ⟨rfl, rfl, replayEntries_length _ _,
   fun i hi => replayEntries_getD _ _ i hi, fun _ => rfl⟩

theorem c6_replay_sequence_assignment_witness :
    (3 < ((parseRecords c6BatchW.payload).1.filter countedRec).length) ∧
    (replayEntries c6BatchW.seq (parseRecords c6BatchW.payload).1).getD 3
        (entryOf (BRec.del []) 0) =
      entryOf (((parseRecords c6BatchW.payload).1.filter countedRec).getD 3
        (BRec.del [])) (c6BatchW.seq + 3) ∧
    c6BatchW.count = 5 :=
  ⟨by decide,
   (c6_replay_sequence_assignment c6BatchW []).2.2.2.1 3 (by decide),
   by decide⟩

/-- C7: `Append(b1, b2)` keeps `b1`'s sequence, sets the count to
`b1.count + b2.count`, concatenates `b2`'s entire payload onto `b1`
(leaving `b2` untouched, so records it accumulated earlier come along),
and replaying the appended batch gives the same memtable contents as
replaying `b1` and then `b2` reset to the continuing sequence
`b1.seq + b1.count`. -/
theorem c7_append_semantics (b1 b2 : WBatch) (mem : List MemEntry)
    (herr : (parseRecords b1.payload).2 = none)
    (hcount : b1.count =
      ((parseRecords b1.payload).1.filter countedRec).length)
    (hsum : b1.count + b2.count < 2 ^ 32) :
    (wbAppend b1 b2).seq = b1.seq ∧
    (wbAppend b1 b2).count = b1.count + b2.count ∧
    (wbAppend b1 b2).payload = b1.payload ++ b2.payload ∧
    (insertInto (wbAppend b1 b2) mem).1 =
      (insertInto { b2 with seq := b1.seq + b1.count }
        ((insertInto b1 mem).1)).1 ∧
    (insertInto (wbAppend b1 b2) mem).2 = (parseRecords b2.payload).2 := by
  have happ := parseRecords_append_of_ok b1.payload b2.payload herr
  refine ⟨rfl, Nat.mod_eq_of_lt hsum, rfl, ?_, ?_⟩
  · show mem ++ replayEntries b1.seq
        (parseRecords (b1.payload ++ b2.payload)).1 =
      (mem ++ replayEntries b1.seq (parseRecords b1.payload).1) ++
        replayEntries (b1.seq + b1.count) (parseRecords b2.payload).1
    rw [happ]
    show mem ++ replayEntries b1.seq
        ((parseRecords b1.payload).1 ++ (parseRecords b2.payload).1) = _
    rw [replayEntries_append, ← hcount, List.append_assoc]
  · show (parseRecords (b1.payload ++ b2.payload)).2 =
      (parseRecords b2.payload).2
    rw [happ]

theorem c7_append_semantics_witness :
    ((parseRecords c7Batch1W.payload).2 = none ∧
     c7Batch1W.count =
       ((parseRecords c7Batch1W.payload).1.filter countedRec).length ∧
     c7Batch1W.count + c7Batch2W.count < 2 ^ 32) ∧
    (wbAppend c7Batch1W c7Batch2W).count =
      c7Batch1W.count + c7Batch2W.count ∧
    (insertInto (wbAppend c7Batch1W c7Batch2W) []).1 =
      (insertInto { c7Batch2W with
          seq := c7Batch1W.seq + c7Batch1W.count }
        ((insertInto c7Batch1W []).1)).1 :=
  ⟨⟨by decide, by decide, by decide⟩,
   (c7_append_semantics c7Batch1W c7Batch2W [] (by decide) (by decide)
     (by decide)).2.1,
   (c7_append_semantics c7Batch1W c7Batch2W [] (by decide) (by decide)
     (by decide)).2.2.2.1⟩

/-- C8: truncating a cleanly-decoding batch payload by one trailing byte
makes replay insert exactly the records that are complete before the
truncation point (they remain in the memtable, not rolled back) and then
fail with the corruption message naming the type of the cut-off record. -/
theorem c8_truncated_batch_replay (b : WBatch) (mem : List MemEntry)
    (herr : (parseRecords b.payload).2 = none) (hne : b.payload ≠ []) :
    (parseRecords b.payload).1 ≠ [] ∧
    (insertInto (wbTruncateOne b) mem).1 =
      mem ++ replayEntries b.seq ((parseRecords b.payload).1.dropLast) ∧
    (insertInto (wbTruncateOne b) mem).2 =
      some (recCorruptionMsg
        ((parseRecords b.payload).1.getLastD (BRec.del []))) := by
  have hdrop := parseRecords_dropLast_aux b.payload.length b.payload le_rfl
    hne herr
  refine ⟨parseRecords_ne_nil _ hne herr, ?_, ?_⟩
  · show mem ++ replayEntries b.seq (parseRecords b.payload.dropLast).1 = _
    rw [hdrop]
  · show (parseRecords b.payload.dropLast).2 = _
    rw [hdrop]

theorem c8_truncated_batch_replay_witness :
    ((parseRecords c8BatchW.payload).2 = none ∧ c8BatchW.payload ≠ []) ∧
    (insertInto (wbTruncateOne c8BatchW) []).2 =
      some (recCorruptionMsg
        ((parseRecords c8BatchW.payload).1.getLastD (BRec.del []))) ∧
    recCorruptionMsg ((parseRecords c8BatchW.payload).1.getLastD
      (BRec.del [])) = "bad WriteBatch Delete" :=
  ⟨⟨by decide, by decide⟩,
   (c8_truncated_batch_replay c8BatchW [] (by decide) (by decide)).2.2,
   by decide⟩

end RocksDB
